import Mathlib

/-!
Verification development for the `gepard_BlindCorr` particle-correction system
(`src/microplas_blind_corr`).  The Python code is shallowly embedded: pandas
DataFrames become `Frame` (a column-name list plus an ordered list of rows),
rows become `Particle` records whose numeric columns live in an association
list, and float sizes are modelled as integers (all claims are about
comparisons and exact arithmetic identities, never about rounding).
`DataFrame.drop(label)` removes every row carrying the label, `idxmin` returns
the first row attaining the minimum, and `groupby` iterates sorted keys, each
group keeping the original row order.  `sort_values` is modelled as a stable
sort (`List.insertionSort` with a non-strict comparator).
-/

namespace Gepard

/-- One particle record = one DataFrame row.  `pid` is the index label,
`sample`/`polymer`/`color`/`shape` are the categorical columns, and `vals`
holds the numeric columns (`size_geom_mean`, raw size dimensions,
`blind_size_geom_mean`, and the transient `size_diff`) by column name. -/
structure Particle where
  pid : Nat
  sample : String
  polymer : String
  color : String
  shape : String
  vals : List (String × Int)
deriving Repr, DecidableEq

/-- Read a numeric column of a row (first binding wins, like a pandas row). -/
def Particle.get (p : Particle) (c : String) : Int :=
  (List.lookup c p.vals).getD 0

/-- Assign a numeric column on a row (`matching_particles['size_diff'] = ...`). -/
def Particle.setVal (p : Particle) (c : String) (v : Int) : Particle :=
  { p with vals := (c, v) :: p.vals }

/-- A DataFrame: its column names and its ordered rows. -/
structure Frame where
  cols : List String
  rows : List Particle
deriving Repr, DecidableEq

/-- Phenotype equality test used by both matchers: polymer, color and shape
must agree (`blank_corrector._find_matching_particles`, lines 142-146, and
`blind_corrector._find_matching_particles`, lines 186-190). -/
def phenMatches (p ref : Particle) : Bool :=
  p.polymer == ref.polymer && p.color == ref.color && p.shape == ref.shape

/-- `DataFrame.drop(label)`: removes every row whose index label equals `i`. -/
def dropPid (pool : List Particle) (i : Nat) : List Particle :=
  pool.filter (fun p => p.pid != i)

/-- `matching_particles['size_diff'].idxmin()`: the first row attaining the
minimal `size_diff` value (pandas `idxmin` returns the first occurrence). -/
def minEntry : Particle → List Particle → Particle
  | best, [] => best
  | best, r :: rs =>
      if r.get "size_diff" < best.get "size_diff" then minEntry r rs
      else minEntry best rs

/-! ## Blank corrector (`processors/blank_corrector.py`) -/

/-- One record of the blank elimination log (columns of lines 53-61). -/
structure BlankElim where
  blankId : Nat
  elimId : Nat
  sample : String
  polymer : String
  color : String
  shape : String
  sizeDiff : Int
deriving Repr, DecidableEq

/-- The size-difference formula of `apply_blank_correction` lines 78-95:
configured dimension `geometric_mean` uses the derived column, a named raw
dimension is used when present on both sides, otherwise fall back to the
geometric mean. -/
def blankSizeDiff (sizeDim : String) (envCols refCols : List String)
    (row ref : Particle) : Int :=
  if sizeDim = "geometric_mean" then
    |row.get "size_geom_mean" - ref.get "size_geom_mean"|
  else if sizeDim ∈ envCols ∧ sizeDim ∈ refCols then
    |row.get sizeDim - ref.get sizeDim|
  else
    |row.get "size_geom_mean" - ref.get "size_geom_mean"|

/-- `BlankCorrector._find_matching_particles` (lines 125-172): phenotype
filter, then — when the match set is non-empty — annotate each candidate with
its `size_diff` to the reference.  The Bool records whether the
"falling back to geometric mean" warning of line 167 was logged. -/
def findMatchingBlank (sizeDim : String) (envCols refCols : List String)
    (pool : List Particle) (ref : Particle) : Frame × Bool :=
  let m := pool.filter (fun p => phenMatches p ref)
  if m.length = 0 then ({ cols := envCols, rows := m }, false)
  else
    let warned := sizeDim ≠ "geometric_mean" ∧ ¬(sizeDim ∈ envCols ∧ sizeDim ∈ refCols)
    ({ cols := envCols ++ ["size_diff"],
       rows := m.map (fun p => p.setVal "size_diff" (blankSizeDiff sizeDim envCols refCols p ref)) },
     decide warned)

/-- `BlankCorrector._find_closest_particle` (lines 174-192): raises
`ValueError` on an empty match set, otherwise returns the id of the first
minimal-`size_diff` row. -/
def findClosestParticleBlank (matching : Frame) : Except String Nat :=
  match matching.rows with
  | [] => .error "No matching particles provided"
  | r :: rs => .ok (minEntry r rs).pid

/-- The elimination record appended by one blank-pass elimination
(lines 98-106): the eliminated row's fields are read back from the current
pool by label (`env_particles_copy.loc[eliminated_particle_id, ...]`), the
size difference is recomputed by the lines 78-95 formula. -/
def blankElimRecord (sizeDim : String) (envCols refCols : List String)
    (pool : List Particle) (b chosen : Particle) : BlankElim :=
  let row := (pool.find? (fun p => p.pid == chosen.pid)).getD chosen
  { blankId := b.pid, elimId := chosen.pid, sample := row.sample,
    polymer := row.polymer, color := row.color, shape := row.shape,
    sizeDiff := blankSizeDiff sizeDim envCols refCols row b }

/-- The body of the `for blank_id, blank_particle in blank_particles.iterrows()`
loop of `apply_blank_correction` (lines 66-119), written as structural
recursion over the control rows with the shrinking pool and the append-only
log as accumulators. -/
def blankLoop (sizeDim : String) (envCols refCols : List String) :
    List Particle → List Particle → List BlankElim → List Particle × List BlankElim
  | [], pool, log => (pool, log)
  | b :: bs, pool, log =>
      let matching := findMatchingBlank sizeDim envCols refCols pool b
      match matching.1.rows with
      | [] => blankLoop sizeDim envCols refCols bs pool log
      | r :: rs =>
          let chosen := minEntry r rs
          blankLoop sizeDim envCols refCols bs (dropPid pool chosen.pid)
            (log ++ [blankElimRecord sizeDim envCols refCols pool b chosen])

/-- `BlankCorrector.apply_blank_correction` (lines 33-123): copy the
environmental pool, run the per-blank loop, return the shrunk pool and the
elimination log.  (`.loc[eliminated_particle_id, ...]` is the label lookup
`find?`; with the unique index labels the engine requires, this is the single
dropped row.) -/
def applyBlankCorrection (sizeDim : String) (env blankF : Frame) :
    Frame × List BlankElim :=
  let r := blankLoop sizeDim env.cols blankF.cols blankF.rows env.rows []
  ({ cols := env.cols, rows := r.1 }, r.2)

/-! ## Blind corrector (`processors/blind_corrector.py`) -/

/-- One record of the blind elimination log (columns of lines 102-111). -/
structure BlindElim where
  blindId : Nat
  blindSample : String
  elimId : Nat
  sample : String
  polymer : String
  color : String
  shape : String
  sizeDiff : Int
deriving Repr, DecidableEq

/-- `BlindCorrector._find_matching_particles` (lines 169-200): phenotype
filter, then annotate with `|size_geom_mean - blind_size_geom_mean|`.  This
matcher takes no configuration: it always uses the geometric-mean columns. -/
def findMatchingBlind (pool : List Particle) (ref : Particle) : List Particle :=
  let m := pool.filter (fun p => phenMatches p ref)
  m.map (fun p =>
    p.setVal "size_diff" |p.get "size_geom_mean" - ref.get "blind_size_geom_mean"|)

/-- `BlindCorrector._find_closest_particle` (lines 202-220). -/
def findClosestParticleBlind (matching : List Particle) : Except String Nat :=
  match matching with
  | [] => .error "No matching particles provided"
  | r :: rs => .ok (minEntry r rs).pid

/-- Comparator for sorted `groupby` keys: byte-wise string order. -/
def charListLe : List Char → List Char → Bool
  | [], _ => true
  | _ :: _, [] => false
  | a :: as, b :: bs =>
      if a.toNat < b.toNat then true
      else if b.toNat < a.toNat then false
      else charListLe as bs

/-- String order used for pandas `groupby` key sorting. -/
def strLe (a b : String) : Prop := charListLe a.data b.data = true

instance : DecidableRel strLe := fun a b => instDecidableEqBool _ _

/-- The distinct sample names of a pool, in sorted order: the keys of
`environmental_particles.groupby('sample_name')`. -/
def sampleKeys (rows : List Particle) : List String :=
  List.insertionSort strLe ((rows.map (·.sample)).dedup)

/-- State of the blind pass: the global environmental pool
(`env_particles_copy`), the elimination log, and — instrumentation for the
membership guard of line 134 — how many times a chosen candidate was already
gone from the global pool (the silently-skipped branch). -/
structure BlindState where
  pool : List Particle
  log : List BlindElim
  misses : Nat
deriving Repr

/-- The elimination record appended by one blind-pass elimination
(lines 136-148): categorical fields come from the *blind* particle, the
sample from the group key, the size difference from the current global pool
row (`env_particles_copy.loc[...]`) against the blind control size. -/
def blindElimRecord (k : String) (pool : List Particle) (b chosen : Particle) : BlindElim :=
  let row := (pool.find? (fun p => p.pid == chosen.pid)).getD chosen
  { blindId := b.pid, blindSample := b.sample, elimId := chosen.pid,
    sample := k, polymer := b.polymer, color := b.color, shape := b.shape,
    sizeDiff := |row.get "size_geom_mean" - b.get "blind_size_geom_mean"| }

/-- The inner `for blind_id, blind_particle in synthetic_blind.iterrows()`
loop of `apply_blind_correction` (lines 122-160) for the sample group named
`k`: match against the group, pick the closest candidate, and — if its label
is still in the global pool — log it and drop it from both the global pool and
the group. -/
def blindGroupLoop (k : String) :
    List Particle → BlindState → List Particle → BlindState × List Particle
  | [], st, grp => (st, grp)
  | b :: bs, st, grp =>
      let matching := findMatchingBlind grp b
      match matching with
      | [] => blindGroupLoop k bs st grp
      | r :: rs =>
          let chosen := minEntry r rs
          if (st.pool.map (·.pid)).contains chosen.pid then
            blindGroupLoop k bs
              { pool := dropPid st.pool chosen.pid,
                log := st.log ++ [blindElimRecord k st.pool b chosen],
                misses := st.misses }
              (dropPid grp chosen.pid)
          else
            blindGroupLoop k bs { st with misses := st.misses + 1 } grp

/-- `BlindCorrector.apply_blind_correction` (lines 82-167), instrumented: the
outer loop iterates the sample groups of the *original* environmental frame
(line 118) while the global pool shrinks across groups; the third component
counts how often the line-134 guard silently skipped a candidate. -/
def applyBlindCorrectionFull (env blindF : Frame) : Frame × List BlindElim × Nat :=
  let final := (sampleKeys env.rows).foldl
    (fun st k =>
      (blindGroupLoop k blindF.rows st (env.rows.filter (fun p => p.sample == k))).1)
    { pool := env.rows, log := [], misses := 0 }
  ({ cols := env.cols, rows := final.pool }, final.log, final.misses)

/-- `BlindCorrector.apply_blind_correction`: the pair actually returned. -/
def applyBlindCorrection (env blindF : Frame) : Frame × List BlindElim :=
  ((applyBlindCorrectionFull env blindF).1, (applyBlindCorrectionFull env blindF).2.1)

/-! ## Synthetic control builder (`BlindCorrector.create_synthetic_blind`) -/

/-- Descending (non-strict) order on the control-size column: the sort key of
`sort_values('blind_size_geom_mean', ascending=False)`. -/
def blindSizeGE (a b : Particle) : Prop :=
  b.get "blind_size_geom_mean" ≤ a.get "blind_size_geom_mean"

instance : DecidableRel blindSizeGE := fun a b => Int.decLe _ _

instance : IsTotal Particle blindSizeGE :=
  ⟨fun a b => le_total (b.get "blind_size_geom_mean") (a.get "blind_size_geom_mean")⟩

instance : IsTrans Particle blindSizeGE :=
  ⟨fun _ _ _ h1 h2 => le_trans h2 h1⟩

/-- `sorted_group.iloc[::n]`: every `n`-th row starting at offset 0. -/
def everyNth (n : Nat) : List Particle → List Particle
  | [] => []
  | x :: xs => x :: everyNth n (xs.drop (n - 1))
termination_by l => l.length
decreasing_by simp; omega

/-- The phenotype triple of a row. -/
def phenOf (p : Particle) : String × String × String := (p.polymer, p.color, p.shape)

/-- Sorted-key comparator for phenotype triples (pandas sorts tuple keys). -/
def phenLe (a b : String × String × String) : Prop :=
  (charListLe a.1.data b.1.data &&
    (!charListLe b.1.data a.1.data ||
      (charListLe a.2.1.data b.2.1.data &&
        (!charListLe b.2.1.data a.2.1.data || charListLe a.2.2.data b.2.2.data)))) = true

instance : DecidableRel phenLe := fun a b => instDecidableEqBool _ _

/-- The distinct phenotype keys of a pool in sorted order: the keys of
`blind_particles.groupby([polymer_col, color_col, shape_col])`. -/
def phenKeys (rows : List Particle) : List (String × String × String) :=
  List.insertionSort phenLe ((rows.map phenOf).dedup)

/-- The rows of one `groupby([polymer, color, shape])` group, in original
row order. -/
def phenGroup (rows : List Particle) (k : String × String × String) : List Particle :=
  rows.filter (fun p => phenOf p == k)

/-- The contract of `group.sort_values('blind_size_geom_mean', ascending=False)`
(line 67).  The call uses pandas' default `kind='quicksort'` (numpy introsort),
which pandas documents as not stable — only `kind='mergesort'`/`'stable'`
preserve the relative order of tied rows — so the source guarantees no more
than: the result is a permutation of the group that is non-increasing in the
control-size column.  A sort outcome is any list satisfying this contract;
theorems about the program's guarantees quantify over all such outcomes. -/
def sortValuesDesc (grp out : List Particle) : Prop :=
  out.Perm grp ∧ List.Sorted blindSizeGE out

/-- The per-phenotype selection of `create_synthetic_blind` (lines 65-72):
sort the group descending by control size, keep every `n`-th row.  The sort
here is realized by a stable insertion sort — one outcome admitted by
`sortValuesDesc`, fixing one tie order so the builder stays executable. -/
def syntheticGroupPick (n : Nat) (grp : List Particle) : List Particle :=
  everyNth n (List.insertionSort blindSizeGE grp)

/-- `BlindCorrector.create_synthetic_blind` (lines 30-80): empty input gives
an empty frame; otherwise subsample each phenotype group at rate
1 / (number of distinct blind sample names) and concatenate. -/
def createSyntheticBlind (blindF : Frame) : Frame :=
  if blindF.rows.length = 0 then { cols := [], rows := [] }
  else
    let n := ((blindF.rows.map (·.sample)).dedup).length
    if n = 0 then { cols := [], rows := [] }
    else
      { cols := blindF.cols,
        rows := ((phenKeys blindF.rows).map (fun k =>
          syntheticGroupPick n (phenGroup blindF.rows k))).flatten }

/-! ## Workflow orchestrator (`workflows/correction_workflow.py`) -/

/-- A parsed correction configuration: the `corrections` mapping, target file
name → control file names, with single-string control entries already
normalized to one-element lists (the `isinstance(control_files, str)`
branches).  Python dict keys are unique; theorems that need this take it as a
`Nodup` hypothesis. -/
abbrev Config := List (String × List String)

/-- Whether `f` is a declared target (`f in corrections`). -/
def isTarget (cfg : Config) (f : String) : Bool :=
  cfg.any (fun e => e.1 == f)

/-- `corrections[f]` for a declared target, `[]` otherwise (dict lookup,
first binding wins). -/
def controlsOf (cfg : Config) (f : String) : List String :=
  ((cfg.find? (fun e => e.1 == f)).map (·.2)).getD []

/-- `dependencies[node]` of `detect_circular_dependencies` (lines 124-128):
the DFS follows every control entry of a declared target. -/
def depMap (cfg : Config) (f : String) : Option (List String) :=
  (cfg.find? (fun e => e.1 == f)).map (·.2)

/-- The edges of the `resolve_processing_order` dependency graph
(lines 186-189): `(control, target)` whenever `control` is itself a declared
target; the control must be processed before the target. -/
def depEdges (cfg : Config) : List (String × String) :=
  cfg.flatMap (fun e => (e.2.filter (fun c => isTarget cfg c)).map (fun c => (c, e.1)))

/-- `all_files` of `resolve_processing_order` (lines 177-184): every declared
target and control name once. -/
def allFiles (cfg : Config) : List String :=
  (cfg.flatMap (fun e => e.1 :: e.2)).dedup

/-- Initial in-degree of each node: the number of dependency edges into it
(`in_degree`, lines 189-194; files never hit by line 189 default to 0). -/
def inDeg0 (cfg : Config) (v : String) : Int :=
  ((depEdges cfg).countP (fun e => e.2 == v) : Int)

/-- `graph[u]`: the dependent targets of control `u`, in insertion order. -/
def adjOf (cfg : Config) (u : String) : List String :=
  ((depEdges cfg).filter (fun e => e.1 == u)).map (·.2)

/-- One dequeue of Kahn's algorithm: decrement the in-degree of every
dependent of `u` and enqueue those that reach zero (lines 210-214). -/
def kahnRelax (adjU : List String) (deg : String → Int) (q : List String) :
    (String → Int) × List String :=
  adjU.foldl
    (fun s v =>
      let d := s.1 v - 1
      (fun w => if w = v then d else s.1 w, if d = 0 then s.2 ++ [v] else s.2))
    (deg, q)

/-- The `while queue:` loop of `resolve_processing_order` (lines 200-214),
fuelled by the node count (every node is dequeued at most once, so the fuel
is never exhausted); returns the dequeue order. -/
def kahnLoop (adjF : String → List String) :
    Nat → List String → (String → Int) → List String → List String
  | 0, _, _, dequeued => dequeued
  | _ + 1, [], _, dequeued => dequeued
  | fuel + 1, u :: q, deg, dequeued =>
      let s := kahnRelax (adjF u) deg q
      kahnLoop adjF fuel s.2 s.1 (dequeued ++ [u])

/-- `CorrectionWorkflow.resolve_processing_order` (lines 165-217): Kahn's
algorithm over the control→target graph; dequeued nodes that are declared
targets are emitted with their control lists. -/
def resolveProcessingOrder (cfg : Config) : List (String × List String) :=
  let files := allFiles cfg
  let q0 := files.filter (fun f => inDeg0 cfg f == 0)
  let dequeued := kahnLoop (adjOf cfg) files.length q0 (inDeg0 cfg) []
  dequeued.filterMap (fun f => cfg.find? (fun e => e.1 == f))

mutual

/-- The in-degree of `v` counting only dependency edges whose source has not
yet been dequeued: the value `in_degree[v]` holds at any point of the Kahn
loop where `D` is the list of already-dequeued nodes. -/
def remDeg (cfg : Config) (D : List String) (v : String) : Int :=
  (((depEdges cfg).countP (fun e => e.2 == v && !(D.contains e.1))) : Int)

/-- The loop invariant of `resolve_processing_order`'s Kahn loop: `D` is the
dequeue history, `queue` the pending queue, `deg` the in-degree table.
Dequeued and queued nodes are distinct files; the table tracks `remDeg`;
a file's degree is zero exactly when it has been seen; a queued node's
dependency sources are already dequeued; and every dequeued target appears
after all its dependency sources. -/
def KahnInv (cfg : Config) (queue : List String) (deg : String → Int)
    (D : List String) : Prop :=
  (D ++ queue).Nodup ∧
  (∀ v ∈ D ++ queue, v ∈ allFiles cfg) ∧
  (∀ v, deg v = remDeg cfg D v) ∧
  (∀ v ∈ allFiles cfg, (deg v = 0 ↔ v ∈ D ++ queue)) ∧
  (∀ e ∈ depEdges cfg, e.2 ∈ queue → e.1 ∈ D) ∧
  (∀ e ∈ depEdges cfg, ∀ l1 l2, D = l1 ++ e.2 :: l2 → e.1 ∈ l1)

/-- DFS cycle check `has_cycle` of `detect_circular_dependencies`
(lines 131-147).  `visiting` is the recursion-stack set, `visited` the
persistent set threaded through the whole detection (Python mutates it in
place).  On fuel exhaustion — unreachable when the fuel exceeds the node
count, since `visiting` grows along a chain of distinct nodes — the
conservative answer `true` is given. -/
def hasCycle (cfg : Config) :
    Nat → String → List String → List String → Bool × List String
  | 0, _, _, visited => (true, visited)
  | fuel + 1, node, visiting, visited =>
      if node ∈ visiting then (true, visited)
      else if node ∈ visited then (false, visited)
      else
        let r := depsLoop cfg fuel ((depMap cfg node).getD []) (node :: visiting) visited
        if r.1 then (true, r.2) else (false, node :: r.2)

/-- The inner `for dep in dependencies[node]` loop of `has_cycle`
(lines 140-143): explore each dependency in turn, returning on the first
cycle, threading the mutated `visited` set. -/
def depsLoop (cfg : Config) :
    Nat → List String → List String → List String → Bool × List String
  | _, [], _, visited => (false, visited)
  | fuel, d :: ds, visiting, visited =>
      let r := hasCycle cfg fuel d visiting visited
      if r.1 then (true, r.2) else depsLoop cfg fuel ds visiting r.2

end

/-- Fuel bound for the DFS: more than every possible recursion depth. -/
def dfsFuel (cfg : Config) : Nat :=
  (cfg.flatMap (fun e => e.1 :: e.2)).length + 1

/-- One iteration of the `for target_file in dependencies` loop of
`detect_circular_dependencies` (lines 150-154): skip already-visited targets,
otherwise run the DFS with a fresh `visiting` set, recording an error and the
mutated `visited` set. -/
def detectStep (cfg : Config) (acc : List String × List String) (t : String) :
    List String × List String :=
  if t ∈ acc.2 then acc
  else
    let r := hasCycle cfg (dfsFuel cfg) t [] acc.2
    if r.1 then (acc.1 ++ ["Circular dependency detected involving: " ++ t], r.2)
    else (acc.1, r.2)

/-- `CorrectionWorkflow.detect_circular_dependencies` (lines 113-163): run the
DFS from every not-yet-visited declared target, collecting one error message
per cycle found, then append one error per direct self-dependency. -/
def detectCircularDependencies (cfg : Config) : List String :=
  let dfs := (cfg.map (·.1)).foldl (detectStep cfg) ([], [])
  dfs.1 ++ cfg.filterMap (fun e =>
    if e.1 ∈ e.2 then some ("File cannot correct itself: " ++ e.1) else none)

/-- The dependency relation the cycle check walks: declared target `u` lists
`v` among its controls (`dependencies[u]` contains `v`). -/
def dependsOn (cfg : Config) (u v : String) : Prop :=
  ∃ cs, (u, cs) ∈ cfg ∧ v ∈ cs

/-- `v` can reach a dependency cycle: some `w` reachable from `v` (possibly
`v` itself) lies on a non-empty `dependsOn`-cycle. -/
def ReachesCycle (cfg : Config) (v : String) : Prop :=
  ∃ w, Relation.ReflTransGen (dependsOn cfg) v w ∧
    Relation.TransGen (dependsOn cfg) w w

/-- Rename one column of a frame (`control_data.rename(columns={...})`). -/
def renameCol (f : Frame) (old new : String) : Frame :=
  { cols := f.cols.map (fun c => if c = old then new else c),
    rows := f.rows.map (fun p =>
      { p with vals := p.vals.map (fun e => if e.1 = old then (new, e.2) else e) }) }

/-- `pd.concat(..., ignore_index=True)`: concatenate rows and relabel the
index `0, 1, 2, ...`. -/
def concatIgnoreIndex (cols : List String) (frames : List Frame) : Frame :=
  { cols := cols,
    rows := ((frames.map (·.rows)).flatten).mapIdx (fun i p => { p with pid := i }) }

/-- The two per-run caches of `CorrectionWorkflow` (`loaded_files`,
`processed_files`) plus instrumentation logs recording each actual file-load
event and each actual preprocessing event, in order. -/
structure WfState where
  loadedFiles : List (String × Frame)
  processedFiles : List (String × Frame)
  loadLog : List String
  procLog : List String
deriving Repr

/-- The empty caches the workflow starts with. -/
def initWfState : WfState :=
  { loadedFiles := [], processedFiles := [], loadLog := [], procLog := [] }

/-- Bookkeeping invariant of the workflow caches: the load and preprocessing
event logs are duplicate-free and mirror the cache keys, so a file is loaded
and preprocessed at most once per run. -/
def WfInv (st : WfState) : Prop :=
  st.loadLog.Nodup ∧ st.procLog.Nodup ∧
  (∀ f, f ∈ st.loadLog ↔ f ∈ st.loadedFiles.map (·.1)) ∧
  (∀ f, f ∈ st.procLog ↔ f ∈ st.processedFiles.map (·.1))

/-- Dictionary write `m[k] = v`: replace the binding if the key exists,
append it otherwise. -/
def setKey (m : List (String × Frame)) (k : String) (v : Frame) :
    List (String × Frame) :=
  if m.any (fun e => e.1 == k) then
    m.map (fun e => if e.1 == k then (k, v) else e)
  else m ++ [(k, v)]

/-- `CorrectionWorkflow._load_file` (lines 240-262): answer from the cache,
else consult the external loader `loadFn`, cache and log the load event. -/
def loadFile (loadFn : String → Frame) (st : WfState) (f : String) :
    WfState × Frame :=
  match st.loadedFiles.find? (fun e => e.1 == f) with
  | some e => (st, e.2)
  | none =>
      let data := loadFn f
      ({ st with loadedFiles := st.loadedFiles ++ [(f, data)],
                 loadLog := st.loadLog ++ [f] }, data)

/-- `CorrectionWorkflow._get_processed_file` (lines 264-284): answer from the
processed cache, else load, run the external preprocessing `processFn`, cache
and log the processing event. -/
def getProcessedFile (loadFn : String → Frame) (processFn : Frame → Frame)
    (st : WfState) (f : String) : WfState × Frame :=
  match st.processedFiles.find? (fun e => e.1 == f) with
  | some e => (st, e.2)
  | none =>
      let r := loadFile loadFn st f
      let processed := processFn r.2
      ({ r.1 with processedFiles := r.1.processedFiles ++ [(f, processed)],
                  procLog := r.1.procLog ++ [f] }, processed)

/-- The fetch-or-compute loop over the control files of a multi-control step
(lines 370-378), with the `size_geom_mean` → `blind_size_geom_mean` rename. -/
def gatherControls (loadFn : String → Frame) (processFn : Frame → Frame) :
    List String → WfState → WfState × List Frame
  | [], st => (st, [])
  | c :: cs, st =>
      let r := getProcessedFile loadFn processFn st c
      let renamed :=
        if "size_geom_mean" ∈ r.2.cols then renameCol r.2 "size_geom_mean" "blind_size_geom_mean"
        else r.2
      let rest := gatherControls loadFn processFn cs r.1
      (rest.1, renamed :: rest.2)

/-- The per-step record of `run_workflow`'s `results` accumulator. -/
structure StepResult where
  targetFile : String
  controlFiles : List String
  originalParticles : Nat
  finalParticles : Nat
  corrected : Frame
  elimCount : Nat
deriving Repr

/-- One iteration of the `for target_file, control_files in processing_order`
loop of `run_workflow` (lines 353-416): fetch the target, run the blank pass
for a single control or the synthetic-blind pass for several, then write the
corrected pool back into the processed cache under the target's file name. -/
def runStep (loadFn : String → Frame) (processFn : Frame → Frame) (sizeDim : String)
    (st : WfState) (tc : String × List String) : WfState × StepResult :=
  let r0 := getProcessedFile loadFn processFn st tc.1
  let targetData := r0.2
  let corrected : WfState × Frame × Nat :=
    match tc.2 with
    | [c] =>
        let r1 := getProcessedFile loadFn processFn r0.1 c
        let b := applyBlankCorrection sizeDim targetData r1.2
        (r1.1, b.1, b.2.length)
    | _ =>
        let r1 := gatherControls loadFn processFn tc.2 r0.1
        let combined := concatIgnoreIndex targetData.cols r1.2
        let synthetic := createSyntheticBlind combined
        let b := applyBlindCorrection targetData synthetic
        (r1.1, b.1, b.2.length)
  let st2 := corrected.1
  let correctedData := corrected.2.1
  ({ st2 with processedFiles := setKey st2.processedFiles tc.1 correctedData },
   { targetFile := tc.1, controlFiles := tc.2,
     originalParticles := targetData.rows.length,
     finalParticles := correctedData.rows.length,
     corrected := correctedData, elimCount := corrected.2.2 })

/-- The step loop of `run_workflow`, accumulating the per-step results. -/
def runSteps (loadFn : String → Frame) (processFn : Frame → Frame) (sizeDim : String) :
    List (String × List String) → WfState → WfState × List StepResult
  | [], st => (st, [])
  | tc :: rest, st =>
      let r := runStep loadFn processFn sizeDim st tc
      let tl := runSteps loadFn processFn sizeDim rest r.1
      (tl.1, r.2 :: tl.2)

/-- `CorrectionWorkflow.run_workflow` (lines 324-421): abort with an error
before touching any file when the cycle check reports errors or the resolved
order is empty; otherwise execute the steps in resolved order.  The returned
`WfState` exposes the caches and the load/process event logs; on the error
paths it is the untouched initial state (no file I/O happened). -/
def runWorkflow (loadFn : String → Frame) (processFn : Frame → Frame)
    (sizeDim : String) (cfg : Config) : WfState × Except String (List StepResult) :=
  if detectCircularDependencies cfg ≠ [] then
    (initWfState, .error "Circular dependencies detected")
  else
    let order := resolveProcessingOrder cfg
    if order.length = 0 then
      (initWfState, .error "No valid corrections found in configuration")
    else
      let r := runSteps loadFn processFn sizeDim order initWfState
      (r.1, .ok r.2)

/-! ## Heap model of the correction passes

The frame-effect claim is about Python object identity: the passes must not
mutate the caller's DataFrames, and the returned pool must be a fresh object.
To state this, the passes are re-traced over an explicit heap of frames.
Allocation (`.copy()`, boolean-mask indexing, `.drop()`, `pd.concat`) appends
a cell; the single in-place mutation of either pass — the
`matching_particles['size_diff'] = ...` column assignment — overwrites a cell
in place.  Arguments and results are heap references. -/

/-- Read a heap cell. -/
def heapGet (h : List Frame) (r : Nat) : Frame :=
  h.getD r { cols := [], rows := [] }

/-- Overwrite a heap cell in place (the `['size_diff'] = ...` assignment). -/
def heapSet (h : List Frame) (r : Nat) (f : Frame) : List Frame :=
  h.set r f

/-- `_find_matching_particles` of the blank pass with its allocations: the
mask-indexing result, then its `.copy()`, then the in-place annotation of the
copy.  Returns the new heap and the reference of the matching frame. -/
def findMatchingBlankHeap (sizeDim : String) (envCols refCols : List String)
    (h : List Frame) (rPool : Nat) (ref : Particle) : List Frame × Nat :=
  let pool := (heapGet h rPool).rows
  let masked : Frame := { cols := envCols, rows := pool.filter (fun p => phenMatches p ref) }
  let h1 := h ++ [masked]
  let h2 := h1 ++ [masked]
  let rCopy := h1.length
  if masked.rows.length = 0 then (h2, rCopy)
  else
    (heapSet h2 rCopy (findMatchingBlank sizeDim envCols refCols pool ref).1, rCopy)

/-- The blank-pass control loop over the heap: each elimination allocates the
dropped pool (`.drop` returns a new frame).  The log is kept as a value (its
identity is not at stake). -/
def blankLoopHeap (sizeDim : String) (envCols refCols : List String) :
    List Particle → List Frame → Nat → List BlankElim → List Frame × Nat × List BlankElim
  | [], h, rPool, log => (h, rPool, log)
  | b :: bs, h, rPool, log =>
      let m := findMatchingBlankHeap sizeDim envCols refCols h rPool b
      match (heapGet m.1 m.2).rows with
      | [] => blankLoopHeap sizeDim envCols refCols bs m.1 rPool log
      | r :: rs =>
          let pool := (heapGet m.1 rPool).rows
          let chosen := minEntry r rs
          let row := (pool.find? (fun p => p.pid == chosen.pid)).getD chosen
          let sd := blankSizeDiff sizeDim envCols refCols row b
          let dropped : Frame := { cols := envCols, rows := dropPid pool chosen.pid }
          blankLoopHeap sizeDim envCols refCols bs (m.1 ++ [dropped]) m.1.length
            (log ++ [{ blankId := b.pid, elimId := chosen.pid, sample := row.sample,
                       polymer := row.polymer, color := row.color, shape := row.shape,
                       sizeDiff := sd }])

/-- `apply_blank_correction` over the heap: allocate the `.copy()` of the
environmental frame, run the loop, return the final heap and the reference of
the corrected pool. -/
def applyBlankCorrectionHeap (sizeDim : String) (h : List Frame)
    (rEnv rBlank : Nat) : List Frame × Nat × List BlankElim :=
  let env := heapGet h rEnv
  let blankF := heapGet h rBlank
  blankLoopHeap sizeDim env.cols blankF.cols blankF.rows (h ++ [env]) h.length []

/-- `BlindCorrector._find_matching_particles` with its allocations: the
mask-indexing result, then its `.copy()`, then the in-place annotation of the
copy (lines 186-198).  Only the heap comes back; the caller re-derives the
match list from the group rows, so the reference of the annotated frame is
not threaded further. -/
def blindMaskHeap (b : Particle) (h : List Frame) (rGrp : Nat) : List Frame :=
  let grp := (heapGet h rGrp).rows
  let masked : Frame := { cols := (heapGet h rGrp).cols,
                          rows := grp.filter (fun p => phenMatches p b) }
  let h1 := (h ++ [masked]) ++ [masked]
  let rCopy := (h ++ [masked]).length
  if masked.rows.length = 0 then h1
  else heapSet h1 rCopy { cols := masked.cols ++ ["size_diff"],
                          rows := findMatchingBlind grp b }

/-- The inner blind-pass loop over the heap: group and global-pool drops each
allocate, the matcher allocates and annotates exactly as in the blank pass. -/
def blindGroupLoopHeap (k : String) :
    List Particle → List Frame → Nat → Nat → List BlindElim →
    List Frame × Nat × Nat × List BlindElim
  | [], h, rPool, rGrp, log => (h, rPool, rGrp, log)
  | b :: bs, h, rPool, rGrp, log =>
      let grp := (heapGet h rGrp).rows
      let h2 := blindMaskHeap b h rGrp
      match findMatchingBlind grp b with
      | [] => blindGroupLoopHeap k bs h2 rPool rGrp log
      | r :: rs =>
          let chosen := minEntry r rs
          let pool := (heapGet h2 rPool).rows
          if (pool.map (·.pid)).contains chosen.pid then
            let row := (pool.find? (fun p => p.pid == chosen.pid)).getD chosen
            let e : BlindElim :=
              { blindId := b.pid, blindSample := b.sample, elimId := chosen.pid,
                sample := k, polymer := b.polymer, color := b.color, shape := b.shape,
                sizeDiff := |row.get "size_geom_mean" - b.get "blind_size_geom_mean"| }
            let h3 := h2 ++ [{ cols := (heapGet h2 rPool).cols, rows := dropPid pool chosen.pid }]
            let h4 := h3 ++ [{ cols := (heapGet h2 rGrp).cols,
                               rows := dropPid (heapGet h2 rGrp).rows chosen.pid }]
            blindGroupLoopHeap k bs h4 h2.length h3.length (log ++ [e])
          else
            blindGroupLoopHeap k bs h2 rPool rGrp log

/-- The outer (per-sample-group) blind loop over the heap: each `groupby`
group is a fresh frame. -/
def blindOuterLoopHeap (envF blindF : Frame) :
    List String → List Frame → Nat → List BlindElim → List Frame × Nat × List BlindElim
  | [], h, rPool, log => (h, rPool, log)
  | k :: ks, h, rPool, log =>
      let grp : Frame := { cols := envF.cols, rows := envF.rows.filter (fun p => p.sample == k) }
      let r := blindGroupLoopHeap k blindF.rows (h ++ [grp]) rPool h.length log
      blindOuterLoopHeap envF blindF ks r.1 r.2.1 r.2.2.2

/-- `apply_blind_correction` over the heap: allocate the `.copy()` of the
environmental frame, then run the grouped loop. -/
def applyBlindCorrectionHeap (h : List Frame) (rEnv rBlind : Nat) :
    List Frame × Nat × List BlindElim :=
  let env := heapGet h rEnv
  let blindF := heapGet h rBlind
  blindOuterLoopHeap env blindF (sampleKeys env.rows) (h ++ [env]) h.length []

/-! ## Spec-side definitions (refinement targets) -/

/-- Modelled from the spec (§4.1, §6): the size-difference annotation policy —
"geometric mean by default, or a named raw dimension, with a logged fallback
to geometric mean if the configured dimension is absent on either side". -/
def specSizeDiff (sizeDim : String) (envCols refCols : List String)
    (cand ref : Particle) : Int :=
  if sizeDim = "geometric_mean" then
    |cand.get "size_geom_mean" - ref.get "size_geom_mean"|
  else if sizeDim ∈ envCols ∧ sizeDim ∈ refCols then
    |cand.get sizeDim - ref.get sizeDim|
  else
    |cand.get "size_geom_mean" - ref.get "size_geom_mean"|

/-! ## Concrete fixtures used by witnesses and counterexamples -/

/-- Fixture: an environmental particle (geometric mean 100, raw size 100). -/
def exEnvP : Particle :=
  ⟨1, "s1", "PE", "blue", "fiber", [("size_geom_mean", 100), ("size_1_um", 100)]⟩

/-- Fixture: a second environmental particle in another sample. -/
def exEnvQ : Particle :=
  ⟨2, "s2", "PE", "blue", "fiber", [("size_geom_mean", 120), ("size_1_um", 120)]⟩

/-- Fixture: a blind control particle (control size 110, raw size 130). -/
def exBlindB : Particle :=
  ⟨7, "blindX", "PE", "blue", "fiber",
   [("blind_size_geom_mean", 110), ("size_1_um", 130)]⟩

/-- Fixture: a two-sample environmental frame. -/
def exEnvFrame : Frame := ⟨["size_geom_mean", "size_1_um"], [exEnvP, exEnvQ]⟩

/-- Fixture: one control particle of the three-blind-file scenario. -/
def exB (i : Nat) (s : String) (v : Int) : Particle :=
  ⟨i, s, "PS", "clear", "irregular", [("blind_size_geom_mean", v)]⟩

/-- Fixture: six control particles from three blind samples (the spec's §8
synthetic-control scenario: sizes {50,60}, {55,65}, {52,58}). -/
def exBlind6 : Frame :=
  ⟨["blind_size_geom_mean"],
   [exB 0 "b1" 50, exB 1 "b1" 60, exB 2 "b2" 55, exB 3 "b2" 65, exB 4 "b3" 52, exB 5 "b3" 58]⟩

/-- Fixture: a one-record control frame for the blind pass. -/
def exBlindFrame : Frame := ⟨["blind_size_geom_mean", "size_1_um"], [exBlindB]⟩

/-- Fixture: a control particle tied on control size with `exTieB`. -/
def exTieA : Particle :=
  ⟨21, "b1", "PE", "blue", "fiber", [("blind_size_geom_mean", 100)]⟩

/-- Fixture: a second control particle of the same phenotype and the same
control size, from another blind sample. -/
def exTieB : Particle :=
  ⟨22, "b2", "PE", "blue", "fiber", [("blind_size_geom_mean", 100)]⟩

/-- Fixture: a two-sample control frame whose single phenotype group is one
tie class. -/
def exTieFrame : Frame := ⟨["blind_size_geom_mean"], [exTieA, exTieB]⟩

/-- Fixture: a chained correction configuration (`B` corrects `A` and is
itself corrected by `C`). -/
def exCfg : Config := [("A", ["B"]), ("B", ["C"])]

/-- Fixture: a two-file circular configuration (`A` ← `B` and `B` ← `A`). -/
def exCycleCfg : Config := [("A", ["B"]), ("B", ["A"])]

/-- Fixture: a topological rank for `exCfg` (`C` before `B` before `A`). -/
def exRank (s : String) : Nat :=
  if s = "A" then 2 else if s = "B" then 1 else 0

/-! ## Basic lemmas about the row and pool operations -/

lemma setVal_pid (p : Particle) (c : String) (v : Int) : (p.setVal c v).pid = p.pid := rfl

lemma mem_dropPid {pool : List Particle} {i : Nat} {q : Particle} :
    q ∈ dropPid pool i ↔ q ∈ pool ∧ q.pid ≠ i := by
  simp [dropPid, List.mem_filter]

lemma mem_map_pid_dropPid {pool : List Particle} {i j : Nat} :
    j ∈ (dropPid pool i).map (·.pid) ↔ j ∈ pool.map (·.pid) ∧ j ≠ i := by
  simp only [List.mem_map]
  constructor
  · rintro ⟨q, hq, rfl⟩
    rcases mem_dropPid.1 hq with ⟨hq1, hq2⟩
    exact ⟨⟨q, hq1, rfl⟩, hq2⟩
  · rintro ⟨⟨q, hq, rfl⟩, hne⟩
    exact ⟨q, mem_dropPid.2 ⟨hq, hne⟩, rfl⟩

lemma map_pid_dropPid_sublist (pool : List Particle) (i : Nat) :
    ((dropPid pool i).map (·.pid)).Sublist (pool.map (·.pid)) :=
  List.Sublist.map _ (List.filter_sublist pool)

lemma nodup_dropPid {pool : List Particle} (i : Nat)
    (h : (pool.map (·.pid)).Nodup) : ((dropPid pool i).map (·.pid)).Nodup :=
  (map_pid_dropPid_sublist pool i).nodup h

lemma length_dropPid_of_nodup {pool : List Particle} {i : Nat}
    (h : (pool.map (·.pid)).Nodup) (hm : i ∈ pool.map (·.pid)) :
    pool.length = (dropPid pool i).length + 1 := by
  induction pool with
  | nil => simp at hm
  | cons p ps ih =>
      simp only [List.map_cons, List.nodup_cons] at h
      rcases List.mem_cons.1 hm with hi | hi
      · have hp : p.pid = i := hi.symm
        have : dropPid (p :: ps) i = dropPid ps i := by
          simp [dropPid, hp]
        rw [this]
        have hdrop : dropPid ps i = ps := by
          apply List.filter_eq_self.2
          intro q hq
          have : q.pid ≠ i := by
            intro hqi
            exact h.1 (by rw [hp, ← hqi]; exact List.mem_map.2 ⟨q, hq, rfl⟩)
          simpa using this
        simp [hdrop]
      · have hp : p.pid ≠ i := by
          intro hpi
          exact h.1 (hpi ▸ hi)
        have : dropPid (p :: ps) i = p :: dropPid ps i := by
          simp [dropPid, hp]
        rw [this]
        simp only [List.length_cons]
        rw [ih h.2 hi]

lemma minEntry_mem (best : Particle) (l : List Particle) :
    minEntry best l ∈ best :: l := by
  induction l generalizing best with
  | nil => simp [minEntry]
  | cons r rs ih =>
      simp only [minEntry]
      by_cases hc : r.get "size_diff" < best.get "size_diff"
      · simp only [if_pos hc]
        have := ih r
        simp only [List.mem_cons] at this ⊢
        tauto
      · simp only [if_neg hc]
        have := ih best
        simp only [List.mem_cons] at this ⊢
        tauto

lemma findMatchingBlank_rows (sizeDim : String) (envCols refCols : List String)
    (pool : List Particle) (ref : Particle) :
    (findMatchingBlank sizeDim envCols refCols pool ref).1.rows =
      (pool.filter (fun p => phenMatches p ref)).map
        (fun p => p.setVal "size_diff" (blankSizeDiff sizeDim envCols refCols p ref)) := by
  unfold findMatchingBlank
  by_cases h : (pool.filter (fun p => phenMatches p ref)).length = 0
  · simp only [if_pos h]
    rw [List.length_eq_zero] at h
    simp [h]
  · simp only [if_neg h]

lemma chosen_pid_mem_blank {sizeDim : String} {envCols refCols : List String}
    {pool : List Particle} {b r : Particle} {rs : List Particle}
    (h : (findMatchingBlank sizeDim envCols refCols pool b).1.rows = r :: rs) :
    (minEntry r rs).pid ∈ pool.map (·.pid) := by
  have hm : minEntry r rs ∈ r :: rs := minEntry_mem r rs
  rw [← h, findMatchingBlank_rows] at hm
  rcases List.mem_map.1 hm with ⟨q, hq, hset⟩
  rcases List.mem_filter.1 hq with ⟨hq1, _⟩
  exact List.mem_map.2 ⟨q, hq1, by rw [← hset]; rfl⟩

lemma chosen_pid_mem_blind {grp : List Particle} {b r : Particle} {rs : List Particle}
    (h : findMatchingBlind grp b = r :: rs) :
    (minEntry r rs).pid ∈ grp.map (·.pid) := by
  have hm : minEntry r rs ∈ r :: rs := minEntry_mem r rs
  rw [← h] at hm
  unfold findMatchingBlind at hm
  rcases List.mem_map.1 hm with ⟨q, hq, hset⟩
  rcases List.mem_filter.1 hq with ⟨hq1, _⟩
  exact List.mem_map.2 ⟨q, hq1, by rw [← hset]; rfl⟩

/-! ## C7: the closest-candidate query fails loudly on an empty match set -/

/-- C7: for every empty match set, `_find_closest_particle` (of both the
blank and the blind corrector) raises an error rather than returning an id;
for every non-empty match set it returns an id and does not raise. -/
theorem closest_candidate_contract (matching : Frame) (ml : List Particle) :
    (matching.rows = [] → ∃ msg, findClosestParticleBlank matching = .error msg) ∧
    (matching.rows ≠ [] → ∃ i, findClosestParticleBlank matching = .ok i) ∧
    (ml = [] → ∃ msg, findClosestParticleBlind ml = .error msg) ∧
    (ml ≠ [] → ∃ i, findClosestParticleBlind ml = .ok i) := by
  refine ⟨?_, ?_, ?_, ?_⟩
  · intro h
    exact ⟨"No matching particles provided", by simp [findClosestParticleBlank, h]⟩
  · intro h
    rcases hr : matching.rows with _ | ⟨r, rs⟩
    · exact absurd hr h
    · exact ⟨(minEntry r rs).pid, by simp [findClosestParticleBlank, hr]⟩
  · intro h
    exact ⟨"No matching particles provided", by simp [findClosestParticleBlind, h]⟩
  · intro h
    rcases hr : ml with _ | ⟨r, rs⟩
    · exact absurd hr h
    · exact ⟨(minEntry r rs).pid, by simp [findClosestParticleBlind]⟩

/-- Witness for C7 at concrete inputs: the empty frame errors, a singleton
match set yields an id. -/
theorem closest_candidate_contract_witness :
    (∃ msg, findClosestParticleBlank ⟨[], []⟩ = .error msg) ∧
    (∃ i, findClosestParticleBlind [exEnvP] = .ok i) := by
  refine ⟨(closest_candidate_contract ⟨[], []⟩ [exEnvP]).1 rfl,
          (closest_candidate_contract ⟨[], []⟩ [exEnvP]).2.2.2 (by simp)⟩

/-! ## C8: size-difference annotation policy of the two matchers -/

/-- C8 counterexample: the claim says the annotation follows the configured
size dimension ("this holds for ... both ... the grouped blind pass"), but the
blind matcher takes no configuration and always annotates with the geometric
mean: with `size_1_um` configured and present on both sides, the blind
annotation differs from the configured-dimension annotation. -/
theorem blind_matcher_ignores_size_dimension :
    findMatchingBlind [exEnvP] exBlindB ≠
      [exEnvP.setVal "size_diff"
        (specSizeDiff "size_1_um" ["size_geom_mean", "size_1_um"]
          ["blind_size_geom_mean", "size_1_um"] exEnvP exBlindB)] := by
  decide

/-- C8 amended: the *blank* matcher annotates every phenotype-matching
candidate with the configured size dimension — the geometric mean when
configured as such, a present named raw dimension otherwise — and logs the
fallback warning exactly when a named dimension is absent from either side's
columns while the match set is non-empty; the *blind* matcher always
annotates with `|size_geom_mean − blind_size_geom_mean|`, ignoring the
configuration. -/
theorem size_annotation_policy (sizeDim : String) (envCols refCols : List String)
    (pool : List Particle) (ref : Particle) :
    (findMatchingBlank sizeDim envCols refCols pool ref).1.rows =
      (pool.filter (fun p => phenMatches p ref)).map
        (fun p => p.setVal "size_diff" (specSizeDiff sizeDim envCols refCols p ref)) ∧
    ((findMatchingBlank sizeDim envCols refCols pool ref).2 = true ↔
      (pool.filter (fun p => phenMatches p ref) ≠ [] ∧ sizeDim ≠ "geometric_mean" ∧
        ¬(sizeDim ∈ envCols ∧ sizeDim ∈ refCols))) ∧
    findMatchingBlind pool ref =
      (pool.filter (fun p => phenMatches p ref)).map
        (fun p => p.setVal "size_diff"
          |p.get "size_geom_mean" - ref.get "blind_size_geom_mean"|) := by
  refine ⟨?_, ?_, rfl⟩
  · rw [findMatchingBlank_rows]
    rfl
  · unfold findMatchingBlank
    by_cases h : (pool.filter (fun p => phenMatches p ref)).length = 0
    · rw [List.length_eq_zero] at h
      simp [h]
    · have hne : pool.filter (fun p => phenMatches p ref) ≠ [] := by
        intro hc
        exact h (by simp [hc])
      simp only [if_neg h]
      simp [hne, decide_eq_true_iff]
      tauto

/-- Witness for C8's amended theorem at a concrete input (no hypotheses in
the amended theorem itself, but the inner iff is exercised): with
`geometric_mean` configured, the blank matcher annotates the fixture with the
geometric-mean difference and logs no warning. -/
theorem size_annotation_policy_witness :
    (findMatchingBlank "geometric_mean" ["size_geom_mean"] ["size_geom_mean"]
        [exEnvP] exEnvQ).2 = true ↔
      ([exEnvP].filter (fun p => phenMatches p exEnvQ) ≠ [] ∧
        "geometric_mean" ≠ "geometric_mean" ∧
        ¬("geometric_mean" ∈ ["size_geom_mean"] ∧ "geometric_mean" ∈ ["size_geom_mean"])) :=
  (size_annotation_policy "geometric_mean" ["size_geom_mean"] ["size_geom_mean"]
    [exEnvP] exEnvQ).2.1

/-! ## Partition and counting lemmas for the blank pass -/

lemma mem_map_pid_of_subset {grp pool : List Particle} {i : Nat}
    (hsub : ∀ q ∈ grp, q ∈ pool) (h : i ∈ grp.map (·.pid)) : i ∈ pool.map (·.pid) := by
  rcases List.mem_map.1 h with ⟨q, hq, rfl⟩
  exact List.mem_map.2 ⟨q, hsub q hq, rfl⟩

lemma blankLoop_partition (sd : String) (ec rc : List String) (bs : List Particle) :
    ∀ (pool : List Particle) (log : List BlankElim),
      (pool.map (·.pid)).Nodup →
      ((blankLoop sd ec rc bs pool log).1.map (·.pid)).Nodup ∧
      ∃ seg, (blankLoop sd ec rc bs pool log).2 = log ++ seg ∧
        pool.length = (blankLoop sd ec rc bs pool log).1.length + seg.length ∧
        (∀ i, i ∈ (blankLoop sd ec rc bs pool log).1.map (·.pid) → i ∉ seg.map (·.elimId)) ∧
        (∀ i, i ∈ pool.map (·.pid) ↔
          i ∈ (blankLoop sd ec rc bs pool log).1.map (·.pid) ∨ i ∈ seg.map (·.elimId)) := by
  induction bs with
  | nil =>
      intro pool log hn
      exact ⟨hn, [], by simp [blankLoop], by simp [blankLoop], by simp, by simp [blankLoop]⟩
  | cons b bs ih =>
      intro pool log hn
      rcases hr : (findMatchingBlank sd ec rc pool b).1.rows with _ | ⟨r, rs⟩
      · have hred : blankLoop sd ec rc (b :: bs) pool log = blankLoop sd ec rc bs pool log := by
          simp only [blankLoop, hr]
        rw [hred]
        exact ih pool log hn
      · have hc : (minEntry r rs).pid ∈ pool.map (·.pid) := chosen_pid_mem_blank hr
        set c := (minEntry r rs).pid with hcdef
        set e : BlankElim := blankElimRecord sd ec rc pool b (minEntry r rs) with hedef
        have heid : e.elimId = c := rfl
        have hred : blankLoop sd ec rc (b :: bs) pool log =
            blankLoop sd ec rc bs (dropPid pool c) (log ++ [e]) := by
          simp only [blankLoop, hr, hedef, hcdef]
        have hn' : ((dropPid pool c).map (·.pid)).Nodup := nodup_dropPid c hn
        rcases ih (dropPid pool c) (log ++ [e]) hn' with ⟨ihn, seg', hlog, hlen, hdisj, hunion⟩
        rw [hred]
        refine ⟨ihn, e :: seg', ?_, ?_, ?_, ?_⟩
        · rw [hlog]; simp
        · rw [length_dropPid_of_nodup hn hc, hlen]; simp; omega
        · intro i hi
          have hidr : i ∈ (dropPid pool c).map (·.pid) := (hunion i).2 (Or.inl hi)
          have hine : i ≠ c := (mem_map_pid_dropPid.1 hidr).2
          simp only [List.map_cons, List.mem_cons]
          rintro (hie | hie)
          · exact hine (heid ▸ hie)
          · exact hdisj i hi hie
        · intro i
          constructor
          · intro hi
            by_cases hic : i = c
            · right
              simp only [List.map_cons, List.mem_cons]
              exact Or.inl (heid ▸ hic)
            · have : i ∈ (dropPid pool c).map (·.pid) := mem_map_pid_dropPid.2 ⟨hi, hic⟩
              rcases (hunion i).1 this with h1 | h1
              · exact Or.inl h1
              · exact Or.inr (by simp only [List.map_cons, List.mem_cons]; right; exact h1)
          · rintro (hi | hi)
            · have : i ∈ (dropPid pool c).map (·.pid) := (hunion i).2 (Or.inl hi)
              exact (mem_map_pid_dropPid.1 this).1
            · simp only [List.map_cons, List.mem_cons] at hi
              rcases hi with hi | hi
              · exact (heid ▸ hi : i = c) ▸ hc
              · have : i ∈ (dropPid pool c).map (·.pid) := (hunion i).2 (Or.inr hi)
                exact (mem_map_pid_dropPid.1 this).1

lemma blankLoop_count (sd : String) (ec rc : List String) (bs : List Particle) :
    ∀ (pool : List Particle) (log : List BlankElim),
      ∃ seg, (blankLoop sd ec rc bs pool log).2 = log ++ seg ∧
        seg.length ≤ bs.length ∧
        (∀ x : Nat, seg.countP (fun ev => ev.blankId == x) ≤
          bs.countP (fun p => p.pid == x)) := by
  induction bs with
  | nil =>
      intro pool log
      exact ⟨[], by simp [blankLoop], by simp, by simp⟩
  | cons b bs ih =>
      intro pool log
      rcases hr : (findMatchingBlank sd ec rc pool b).1.rows with _ | ⟨r, rs⟩
      · have hred : blankLoop sd ec rc (b :: bs) pool log = blankLoop sd ec rc bs pool log := by
          simp only [blankLoop, hr]
        rw [hred]
        rcases ih pool log with ⟨seg, h1, h2, h3⟩
        refine ⟨seg, h1, Nat.le_succ_of_le h2, fun x => ?_⟩
        calc seg.countP (fun ev => ev.blankId == x) ≤ bs.countP (fun p => p.pid == x) := h3 x
          _ ≤ (b :: bs).countP (fun p => p.pid == x) := by
              rw [List.countP_cons]; omega
      · simp only [blankLoop, hr]
        rcases ih (dropPid pool (minEntry r rs).pid)
          (log ++ [blankElimRecord sd ec rc pool b (minEntry r rs)]) with ⟨seg, h1, h2, h3⟩
        rw [h1]
        refine ⟨blankElimRecord sd ec rc pool b (minEntry r rs) :: seg, by simp,
          by simpa using Nat.succ_le_succ h2, fun x => ?_⟩
        rw [List.countP_cons, List.countP_cons]
        have hid : (blankElimRecord sd ec rc pool b (minEntry r rs)).blankId = b.pid := rfl
        rw [hid]
        have h3x := h3 x
        omega

/-! ## Counting and partition lemmas for the blind pass -/

lemma blindGroupLoop_count (k : String) (bs : List Particle) :
    ∀ (st : BlindState) (grp : List Particle),
      ∃ seg, (blindGroupLoop k bs st grp).1.log = st.log ++ seg ∧
        seg.length ≤ bs.length ∧
        (∀ e ∈ seg, e.sample = k) ∧
        (∀ x : Nat, seg.countP (fun ev => ev.blindId == x) ≤
          bs.countP (fun p => p.pid == x)) := by
  induction bs with
  | nil =>
      intro st grp
      exact ⟨[], by simp [blindGroupLoop], by simp, by simp, by simp⟩
  | cons b bs ih =>
      intro st grp
      rcases hr : findMatchingBlind grp b with _ | ⟨r, rs⟩
      · have hred : blindGroupLoop k (b :: bs) st grp = blindGroupLoop k bs st grp := by
          simp only [blindGroupLoop, hr]
        rw [hred]
        rcases ih st grp with ⟨seg, h1, h2, h3, h4⟩
        refine ⟨seg, h1, Nat.le_succ_of_le h2, h3, fun x => ?_⟩
        calc seg.countP (fun ev => ev.blindId == x) ≤ bs.countP (fun p => p.pid == x) := h4 x
          _ ≤ (b :: bs).countP (fun p => p.pid == x) := by rw [List.countP_cons]; omega
      · by_cases hg : ((st.pool.map (·.pid)).contains (minEntry r rs).pid) = true
        · have hred : blindGroupLoop k (b :: bs) st grp =
              blindGroupLoop k bs
                { pool := dropPid st.pool (minEntry r rs).pid,
                  log := st.log ++ [blindElimRecord k st.pool b (minEntry r rs)],
                  misses := st.misses }
                (dropPid grp (minEntry r rs).pid) := by
            simp only [blindGroupLoop, hr, hg, if_true]
          rw [hred]
          rcases ih { pool := dropPid st.pool (minEntry r rs).pid,
                      log := st.log ++ [blindElimRecord k st.pool b (minEntry r rs)],
                      misses := st.misses } (dropPid grp (minEntry r rs).pid) with ⟨seg, h1, h2, h3, h4⟩
          simp only at h1
          rw [h1]
          refine ⟨blindElimRecord k st.pool b (minEntry r rs) :: seg, by simp,
            by simpa using Nat.succ_le_succ h2, ?_, fun x => ?_⟩
          · intro e he
            rcases List.mem_cons.1 he with he | he
            · rw [he]; rfl
            · exact h3 e he
          · rw [List.countP_cons, List.countP_cons]
            have hid : (blindElimRecord k st.pool b (minEntry r rs)).blindId = b.pid := rfl
            rw [hid]
            have h4x := h4 x
            omega
        · have hred : blindGroupLoop k (b :: bs) st grp =
              blindGroupLoop k bs { st with misses := st.misses + 1 } grp := by
            simp only [blindGroupLoop, hr]
            rw [if_neg hg]
          rw [hred]
          rcases ih { st with misses := st.misses + 1 } grp with ⟨seg, h1, h2, h3, h4⟩
          simp only at h1
          refine ⟨seg, h1, Nat.le_succ_of_le h2, h3, fun x => ?_⟩
          calc seg.countP (fun ev => ev.blindId == x) ≤ bs.countP (fun p => p.pid == x) := h4 x
            _ ≤ (b :: bs).countP (fun p => p.pid == x) := by rw [List.countP_cons]; omega

lemma blindGroupLoop_partition (k : String) (bs : List Particle) :
    ∀ (st : BlindState) (grp : List Particle),
      (st.pool.map (·.pid)).Nodup →
      (∀ q ∈ grp, q ∈ st.pool) →
      ((blindGroupLoop k bs st grp).1.pool.map (·.pid)).Nodup ∧
      (blindGroupLoop k bs st grp).1.misses = st.misses ∧
      (∀ q ∈ (blindGroupLoop k bs st grp).1.pool, q ∈ st.pool) ∧
      (∀ q ∈ st.pool, q ∈ (blindGroupLoop k bs st grp).1.pool ∨ q.pid ∈ grp.map (·.pid)) ∧
      ∃ seg, (blindGroupLoop k bs st grp).1.log = st.log ++ seg ∧
        st.pool.length = (blindGroupLoop k bs st grp).1.pool.length + seg.length ∧
        (∀ i, i ∈ (blindGroupLoop k bs st grp).1.pool.map (·.pid) → i ∉ seg.map (·.elimId)) ∧
        (∀ i, i ∈ st.pool.map (·.pid) ↔
          i ∈ (blindGroupLoop k bs st grp).1.pool.map (·.pid) ∨ i ∈ seg.map (·.elimId)) := by
  induction bs with
  | nil =>
      intro st grp hn hsub
      exact ⟨hn, rfl, fun q hq => hq, fun q hq => Or.inl hq, [],
        by simp [blindGroupLoop], by simp [blindGroupLoop], by simp, by simp [blindGroupLoop]⟩
  | cons b bs ih =>
      intro st grp hn hsub
      rcases hr : findMatchingBlind grp b with _ | ⟨r, rs⟩
      · have hred : blindGroupLoop k (b :: bs) st grp = blindGroupLoop k bs st grp := by
          simp only [blindGroupLoop, hr]
        rw [hred]
        exact ih st grp hn hsub
      · have hcg : (minEntry r rs).pid ∈ grp.map (·.pid) := chosen_pid_mem_blind hr
        have hcp : (minEntry r rs).pid ∈ st.pool.map (·.pid) := mem_map_pid_of_subset hsub hcg
        have hg : ((st.pool.map (·.pid)).contains (minEntry r rs).pid) = true := by
          simpa using hcp
        set c := (minEntry r rs).pid with hcdef
        set st1 : BlindState :=
          { pool := dropPid st.pool c,
            log := st.log ++ [blindElimRecord k st.pool b (minEntry r rs)],
            misses := st.misses } with hst1
        have hred : blindGroupLoop k (b :: bs) st grp =
            blindGroupLoop k bs st1 (dropPid grp c) := by
          simp only [blindGroupLoop, hr, hg, if_true, hst1, hcdef]
        rw [hred]
        have hn1 : (st1.pool.map (·.pid)).Nodup := nodup_dropPid c hn
        have hsub1 : ∀ q ∈ dropPid grp c, q ∈ st1.pool := by
          intro q hq
          rcases mem_dropPid.1 hq with ⟨hq1, hq2⟩
          exact mem_dropPid.2 ⟨hsub q hq1, hq2⟩
        rcases ih st1 (dropPid grp c) hn1 hsub1 with
          ⟨ihn, ihm, ihshrink, ihstay, seg', hlog, hlen, hdisj, hunion⟩
        have heid : (blindElimRecord k st.pool b (minEntry r rs)).elimId = c := rfl
        refine ⟨ihn, by rw [ihm], ?_, ?_, blindElimRecord k st.pool b (minEntry r rs) :: seg',
          ?_, ?_, ?_, ?_⟩
        · intro q hq
          exact mem_dropPid.1 (ihshrink q hq) |>.1
        · intro q hq
          by_cases hqc : q.pid = c
          · exact Or.inr (hqc ▸ hcg)
          · rcases ihstay q (mem_dropPid.2 ⟨hq, hqc⟩) with h1 | h1
            · exact Or.inl h1
            · exact Or.inr (mem_map_pid_dropPid.1 h1).1
        · rw [hlog, hst1]; simp
        · have : st.pool.length = st1.pool.length + 1 := length_dropPid_of_nodup hn hcp
          rw [this, hlen]; simp; omega
        · intro i hi
          have hidr : i ∈ st1.pool.map (·.pid) := (hunion i).2 (Or.inl hi)
          have hine : i ≠ c := (mem_map_pid_dropPid.1 hidr).2
          simp only [List.map_cons, List.mem_cons]
          rintro (hie | hie)
          · exact hine (heid ▸ hie)
          · exact hdisj i hi hie
        · intro i
          constructor
          · intro hi
            by_cases hic : i = c
            · right
              simp only [List.map_cons, List.mem_cons]
              exact Or.inl (heid ▸ hic)
            · have : i ∈ st1.pool.map (·.pid) := mem_map_pid_dropPid.2 ⟨hi, hic⟩
              rcases (hunion i).1 this with h1 | h1
              · exact Or.inl h1
              · exact Or.inr (by simp only [List.map_cons, List.mem_cons]; right; exact h1)
          · rintro (hi | hi)
            · have : i ∈ st1.pool.map (·.pid) := (hunion i).2 (Or.inl hi)
              exact (mem_map_pid_dropPid.1 this).1
            · simp only [List.map_cons, List.mem_cons] at hi
              rcases hi with hi | hi
              · exact (heid ▸ hi : i = c) ▸ hcp
              · have : i ∈ st1.pool.map (·.pid) := (hunion i).2 (Or.inr hi)
                exact (mem_map_pid_dropPid.1 this).1

/-! ## Outer (per-sample-group) composition lemmas for the blind pass -/

lemma blindFold_partition (envRows blinds : List Particle)
    (henv : (envRows.map (·.pid)).Nodup) :
    ∀ (ks : List String) (st : BlindState),
      (st.pool.map (·.pid)).Nodup →
      (∀ q ∈ st.pool, q ∈ envRows) →
      (∀ q ∈ envRows, q.sample ∈ ks → q ∈ st.pool) →
      ks.Nodup →
      ((ks.foldl (fun st k =>
          (blindGroupLoop k blinds st (envRows.filter (fun p => p.sample == k))).1)
          st).pool.map (·.pid)).Nodup ∧
      (ks.foldl (fun st k =>
          (blindGroupLoop k blinds st (envRows.filter (fun p => p.sample == k))).1)
          st).misses = st.misses ∧
      ∃ seg, (ks.foldl (fun st k =>
          (blindGroupLoop k blinds st (envRows.filter (fun p => p.sample == k))).1)
          st).log = st.log ++ seg ∧
        st.pool.length = (ks.foldl (fun st k =>
          (blindGroupLoop k blinds st (envRows.filter (fun p => p.sample == k))).1)
          st).pool.length + seg.length ∧
        (∀ i, i ∈ (ks.foldl (fun st k =>
          (blindGroupLoop k blinds st (envRows.filter (fun p => p.sample == k))).1)
          st).pool.map (·.pid) → i ∉ seg.map (·.elimId)) ∧
        (∀ i, i ∈ st.pool.map (·.pid) ↔
          i ∈ (ks.foldl (fun st k =>
            (blindGroupLoop k blinds st (envRows.filter (fun p => p.sample == k))).1)
            st).pool.map (·.pid) ∨ i ∈ seg.map (·.elimId)) := by
  intro ks
  induction ks with
  | nil =>
      intro st hn _ _ _
      exact ⟨hn, rfl, [], by simp, by simp, by simp, by simp⟩
  | cons k ks ih =>
      intro st hn hin hcover hknd
      have hsub : ∀ q ∈ envRows.filter (fun p => p.sample == k), q ∈ st.pool := by
        intro q hq
        rcases List.mem_filter.1 hq with ⟨hq1, hq2⟩
        exact hcover q hq1 (by simp at hq2; simp [hq2])
      rcases blindGroupLoop_partition k blinds st (envRows.filter (fun p => p.sample == k))
        hn hsub with ⟨hn1, hm1, hshrink1, hstay1, seg1, hlog1, hlen1, hdisj1, hunion1⟩
      set st1 := (blindGroupLoop k blinds st (envRows.filter (fun p => p.sample == k))).1 with hst1
      have hknd' : ks.Nodup := (List.nodup_cons.1 hknd).2
      have hknotin : k ∉ ks := (List.nodup_cons.1 hknd).1
      have hin1 : ∀ q ∈ st1.pool, q ∈ envRows := fun q hq => hin q (hshrink1 q hq)
      have hcover1 : ∀ q ∈ envRows, q.sample ∈ ks → q ∈ st1.pool := by
        intro q hq hks
        have hq0 : q ∈ st.pool := hcover q hq (List.mem_cons.2 (Or.inr hks))
        rcases hstay1 q hq0 with h1 | h1
        · exact h1
        · exfalso
          rcases List.mem_map.1 h1 with ⟨g, hg, hgp⟩
          rcases List.mem_filter.1 hg with ⟨hg1, hg2⟩
          have hgq : g = q := List.inj_on_of_nodup_map henv hg1 hq hgp
          have : q.sample = k := by
            rw [← hgq]
            simpa using hg2
          exact hknotin (this ▸ hks)
      have hfold : (k :: ks).foldl (fun st k =>
          (blindGroupLoop k blinds st (envRows.filter (fun p => p.sample == k))).1) st =
          ks.foldl (fun st k =>
          (blindGroupLoop k blinds st (envRows.filter (fun p => p.sample == k))).1) st1 := by
        simp [List.foldl_cons, hst1]
      rw [hfold]
      rcases ih st1 hn1 hin1 hcover1 hknd' with ⟨hn2, hm2, seg2, hlog2, hlen2, hdisj2, hunion2⟩
      refine ⟨hn2, by rw [hm2, hm1], seg1 ++ seg2, ?_, ?_, ?_, ?_⟩
      · rw [hlog2, hlog1]; simp
      · rw [hlen1, hlen2, List.length_append]
        omega
      · intro i hi
        rw [List.map_append, List.mem_append]
        have hi1 : i ∈ st1.pool.map (·.pid) := (hunion2 i).2 (Or.inl hi)
        rintro (hie | hie)
        · exact hdisj1 i hi1 hie
        · exact hdisj2 i hi hie
      · intro i
        rw [List.map_append, List.mem_append]
        constructor
        · intro hi
          rcases (hunion1 i).1 hi with h1 | h1
          · rcases (hunion2 i).1 h1 with h2 | h2
            · exact Or.inl h2
            · exact Or.inr (Or.inr h2)
          · exact Or.inr (Or.inl h1)
        · rintro (hi | hi | hi)
          · exact (hunion1 i).2 (Or.inl ((hunion2 i).2 (Or.inl hi)))
          · exact (hunion1 i).2 (Or.inr hi)
          · exact (hunion1 i).2 (Or.inl ((hunion2 i).2 (Or.inr hi)))

lemma blindFold_count (envRows blinds : List Particle) :
    ∀ (ks : List String) (st : BlindState),
      ks.Nodup →
      ∃ seg, (ks.foldl (fun st k =>
          (blindGroupLoop k blinds st (envRows.filter (fun p => p.sample == k))).1)
          st).log = st.log ++ seg ∧
        seg.length ≤ ks.length * blinds.length ∧
        (∀ e ∈ seg, e.sample ∈ ks) ∧
        (∀ (x : Nat) (q : String), seg.countP (fun e => e.blindId == x && e.sample == q) ≤
          blinds.countP (fun p => p.pid == x)) := by
  intro ks
  induction ks with
  | nil =>
      intro st _
      exact ⟨[], by simp, by simp, by simp, by simp⟩
  | cons k ks ih =>
      intro st hknd
      have hknd' : ks.Nodup := (List.nodup_cons.1 hknd).2
      have hknotin : k ∉ ks := (List.nodup_cons.1 hknd).1
      rcases blindGroupLoop_count k blinds st (envRows.filter (fun p => p.sample == k)) with
        ⟨seg1, hlog1, hlen1, hsamp1, hcnt1⟩
      set st1 := (blindGroupLoop k blinds st (envRows.filter (fun p => p.sample == k))).1 with hst1
      have hfold : (k :: ks).foldl (fun st k =>
          (blindGroupLoop k blinds st (envRows.filter (fun p => p.sample == k))).1) st =
          ks.foldl (fun st k =>
          (blindGroupLoop k blinds st (envRows.filter (fun p => p.sample == k))).1) st1 := by
        simp [List.foldl_cons, hst1]
      rw [hfold]
      rcases ih st1 hknd' with ⟨seg2, hlog2, hlen2, hsamp2, hcnt2⟩
      refine ⟨seg1 ++ seg2, ?_, ?_, ?_, ?_⟩
      · rw [hlog2, hlog1]; simp
      · rw [List.length_append]
        have : (k :: ks).length * blinds.length = blinds.length + ks.length * blinds.length := by
          simp [Nat.succ_mul, Nat.add_comm]
        omega
      · intro e he
        rcases List.mem_append.1 he with he | he
        · exact List.mem_cons.2 (Or.inl (hsamp1 e he))
        · exact List.mem_cons.2 (Or.inr (hsamp2 e he))
      · intro x q
        rw [List.countP_append]
        by_cases hqk : q = k
        · have h1 : seg1.countP (fun e => e.blindId == x && e.sample == q) =
              seg1.countP (fun e => e.blindId == x) := by
            apply List.countP_congr
            intro e he
            have : e.sample = q := hqk ▸ hsamp1 e he
            simp [this]
          have h2 : seg2.countP (fun e => e.blindId == x && e.sample == q) = 0 := by
            rw [List.countP_eq_zero]
            intro e he
            have hs : e.sample ∈ ks := hsamp2 e he
            have : e.sample ≠ q := by
              intro hc
              exact hknotin (by rw [← hqk, ← hc]; exact hs)
            simp [this]
          rw [h1, h2]
          simpa using hcnt1 x
        · have h1 : seg1.countP (fun e => e.blindId == x && e.sample == q) = 0 := by
            rw [List.countP_eq_zero]
            intro e he
            have : e.sample ≠ q := by
              rw [hsamp1 e he]
              exact fun hc => hqk hc.symm
            simp [this]
          rw [h1]
          simpa using hcnt2 x q

/-- The sorted distinct sample keys are duplicate-free. -/
lemma sampleKeys_nodup (rows : List Particle) : (sampleKeys rows).Nodup :=
  (List.nodup_dedup _).perm (List.perm_insertionSort strLe _).symm

/-! ## C1: every correction pass partitions its input pool -/

/-- C1: for both the single-control blank pass and the grouped blind pass,
the output partitions the input: |pre-pool| = |post-pool| + |elimination
log|, the post-pool ids and the eliminated ids are disjoint, and their union
is the pre-pool's id set.  (Particle ids are unique within any pool the
engine operates on — the data-model invariant — taken as the hypothesis.) -/
theorem partition_invariant (sizeDim : String) (env blankF blindF : Frame)
    (henv : (env.rows.map (·.pid)).Nodup) :
    (env.rows.length = (applyBlankCorrection sizeDim env blankF).1.rows.length +
        (applyBlankCorrection sizeDim env blankF).2.length ∧
      (∀ i, i ∈ (applyBlankCorrection sizeDim env blankF).1.rows.map (·.pid) →
        i ∉ (applyBlankCorrection sizeDim env blankF).2.map (·.elimId)) ∧
      (∀ i, i ∈ env.rows.map (·.pid) ↔
        i ∈ (applyBlankCorrection sizeDim env blankF).1.rows.map (·.pid) ∨
        i ∈ (applyBlankCorrection sizeDim env blankF).2.map (·.elimId))) ∧
    (env.rows.length = (applyBlindCorrection env blindF).1.rows.length +
        (applyBlindCorrection env blindF).2.length ∧
      (∀ i, i ∈ (applyBlindCorrection env blindF).1.rows.map (·.pid) →
        i ∉ (applyBlindCorrection env blindF).2.map (·.elimId)) ∧
      (∀ i, i ∈ env.rows.map (·.pid) ↔
        i ∈ (applyBlindCorrection env blindF).1.rows.map (·.pid) ∨
        i ∈ (applyBlindCorrection env blindF).2.map (·.elimId))) := by
  constructor
  · rcases blankLoop_partition sizeDim env.cols blankF.cols blankF.rows env.rows [] henv with
      ⟨_, seg, hlog, hlen, hdisj, hunion⟩
    have hseg : seg = (blankLoop sizeDim env.cols blankF.cols blankF.rows env.rows []).2 := by
      simpa using hlog.symm
    simp only [applyBlankCorrection]
    rw [← hseg]
    exact ⟨hlen, hdisj, hunion⟩
  · rcases blindFold_partition env.rows blindF.rows henv (sampleKeys env.rows)
      { pool := env.rows, log := [], misses := 0 } henv (fun q hq => hq)
      (fun q hq _ => hq) (sampleKeys_nodup env.rows) with
      ⟨_, _, seg, hlog, hlen, hdisj, hunion⟩
    have hseg : seg = ((sampleKeys env.rows).foldl (fun st k =>
        (blindGroupLoop k blindF.rows st (env.rows.filter (fun p => p.sample == k))).1)
        { pool := env.rows, log := [], misses := 0 }).log := by
      simpa using hlog.symm
    simp only [applyBlindCorrection, applyBlindCorrectionFull]
    rw [← hseg]
    exact ⟨hlen, hdisj, hunion⟩

/-- Witness for C1 at concrete two-row / one-control frames. -/
theorem partition_invariant_witness :
    ((exEnvFrame.rows.map (·.pid)).Nodup) ∧
    (exEnvFrame.rows.length =
      (applyBlindCorrection exEnvFrame exBlindFrame).1.rows.length +
      (applyBlindCorrection exEnvFrame exBlindFrame).2.length) :=
  ⟨by decide,
   ((partition_invariant "geometric_mean" exEnvFrame exBlindFrame exBlindFrame
      (by decide)).2).1⟩

/-! ## C2: at-most-one-per-control -/

/-- C2 counterexample: in the grouped blind pass a single control record can
eliminate once per sample group, so with two sample groups and one matching
control record the elimination log is longer than the control pool. -/
theorem blind_log_exceeds_control_pool :
    ¬ ((applyBlindCorrection exEnvFrame exBlindFrame).2.length ≤
        exBlindFrame.rows.length) := by
  decide

/-- C2 amended: in the blank pass no control record produces more than one
elimination and the log never exceeds the control pool's size; in the grouped
blind pass this holds *per sample group* — each control record eliminates at
most once per sample group, and the log's length is bounded by the number of
sample groups times the control pool's size. -/
theorem at_most_one_elimination_per_control_per_group (sizeDim : String)
    (env blankF blindF : Frame) :
    ((applyBlankCorrection sizeDim env blankF).2.length ≤ blankF.rows.length ∧
      ∀ x : Nat, (applyBlankCorrection sizeDim env blankF).2.countP
          (fun e => e.blankId == x) ≤ blankF.rows.countP (fun p => p.pid == x)) ∧
    ((applyBlindCorrection env blindF).2.length ≤
        (sampleKeys env.rows).length * blindF.rows.length ∧
      ∀ (x : Nat) (k : String), (applyBlindCorrection env blindF).2.countP
          (fun e => e.blindId == x && e.sample == k) ≤
        blindF.rows.countP (fun p => p.pid == x)) := by
  constructor
  · rcases blankLoop_count sizeDim env.cols blankF.cols blankF.rows env.rows [] with
      ⟨seg, hlog, hlen, hcnt⟩
    have hseg : seg = (blankLoop sizeDim env.cols blankF.cols blankF.rows env.rows []).2 := by
      simpa using hlog.symm
    simp only [applyBlankCorrection]
    rw [← hseg]
    exact ⟨hlen, hcnt⟩
  · rcases blindFold_count env.rows blindF.rows (sampleKeys env.rows)
      { pool := env.rows, log := [], misses := 0 } (sampleKeys_nodup env.rows) with
      ⟨seg, hlog, hlen, _, hcnt⟩
    have hseg : seg = ((sampleKeys env.rows).foldl (fun st k =>
        (blindGroupLoop k blindF.rows st (env.rows.filter (fun p => p.sample == k))).1)
        { pool := env.rows, log := [], misses := 0 }).log := by
      simpa using hlog.symm
    simp only [applyBlindCorrection, applyBlindCorrectionFull]
    rw [← hseg]
    exact ⟨hlen, hcnt⟩

/-! ## C10: the blind pass's membership guard is never taken -/

/-- C10: under the precondition that particle ids are unique across the whole
target pool, the candidate chosen for a control record is always still
present in the global working pool, so the guard of line 134 that would
silently skip an already-eliminated particle never fires (the instrumented
miss counter stays 0). -/
theorem blind_guard_never_skips (env blindF : Frame)
    (henv : (env.rows.map (·.pid)).Nodup) :
    (applyBlindCorrectionFull env blindF).2.2 = 0 := by
  rcases blindFold_partition env.rows blindF.rows henv (sampleKeys env.rows)
    { pool := env.rows, log := [], misses := 0 } henv (fun q hq => hq)
    (fun q hq _ => hq) (sampleKeys_nodup env.rows) with ⟨_, hm, _⟩
  simpa [applyBlindCorrectionFull] using hm

/-- Witness for C10 at the concrete fixtures. -/
theorem blind_guard_never_skips_witness :
    ((exEnvFrame.rows.map (·.pid)).Nodup) ∧
    (applyBlindCorrectionFull exEnvFrame exBlindFrame).2.2 = 0 :=
  ⟨by decide, blind_guard_never_skips exEnvFrame exBlindFrame (by decide)⟩

/-! ## Lemmas for the synthetic control builder -/

lemma everyNth_nil (n : Nat) : everyNth n [] = [] := by
  rw [everyNth]

lemma everyNth_cons (n : Nat) (x : Particle) (xs : List Particle) :
    everyNth n (x :: xs) = x :: everyNth n (xs.drop (n - 1)) := by
  rw [everyNth]

lemma everyNth_length (n : Nat) (hn : 1 ≤ n) :
    ∀ l : List Particle, (everyNth n l).length = (l.length + n - 1) / n := by
  suffices h : ∀ (m : Nat) (l : List Particle), l.length ≤ m →
      (everyNth n l).length = (l.length + n - 1) / n from fun l => h l.length l le_rfl
  intro m
  induction m with
  | zero =>
      intro l hl
      have hnil : l = [] := List.eq_nil_of_length_eq_zero (Nat.le_antisymm hl (Nat.zero_le _))
      subst hnil
      rw [everyNth_nil]
      simp only [List.length_nil, Nat.zero_add]
      exact (Nat.div_eq_of_lt (by omega)).symm
  | succ m ih =>
      intro l hl
      cases l with
      | nil =>
          rw [everyNth_nil]
          simp only [List.length_nil, Nat.zero_add]
          exact (Nat.div_eq_of_lt (by omega)).symm
      | cons x xs =>
          rw [everyNth_cons]
          simp only [List.length_cons]
          have hd : (xs.drop (n - 1)).length ≤ m := by
            simp only [List.length_drop]
            simp only [List.length_cons] at hl
            omega
          rw [ih _ hd]
          simp only [List.length_drop]
          by_cases hcase : xs.length ≤ n - 1
          · have h1 : xs.length - (n - 1) + n - 1 = n - 1 := by omega
            rw [h1]
            have h2 : (n - 1) / n = 0 := Nat.div_eq_of_lt (by omega)
            have h3 : xs.length + 1 + n - 1 = xs.length + n := by omega
            rw [h2, h3, Nat.add_div_right _ (by omega)]
            have h4 : xs.length / n = 0 := Nat.div_eq_of_lt (by omega)
            rw [h4]
          · have h1 : xs.length - (n - 1) + n - 1 = xs.length := by omega
            rw [h1]
            have h3 : xs.length + 1 + n - 1 = xs.length + n := by omega
            rw [h3, Nat.add_div_right _ (by omega)]

lemma everyNth_sublist (n : Nat) : ∀ l : List Particle, (everyNth n l).Sublist l := by
  suffices h : ∀ (m : Nat) (l : List Particle), l.length ≤ m →
      (everyNth n l).Sublist l from fun l => h l.length l le_rfl
  intro m
  induction m with
  | zero =>
      intro l hl
      have hnil : l = [] := List.eq_nil_of_length_eq_zero (Nat.le_antisymm hl (Nat.zero_le _))
      subst hnil
      rw [everyNth_nil]
  | succ m ih =>
      intro l hl
      cases l with
      | nil => rw [everyNth_nil]
      | cons x xs =>
          rw [everyNth_cons]
          apply List.Sublist.cons₂
          apply List.Sublist.trans _ (List.drop_sublist (n - 1) xs)
          apply ih
          simp only [List.length_drop]
          simp only [List.length_cons] at hl
          omega

/-! ## C3: synthetic control subsampling -/

/-- C3 (counterexample): the claim's "preserving original relative order for
ties" is not guaranteed by the program.  `sort_values` at line 67 runs with
the default unstable `kind='quicksort'`, so its contract (`sortValuesDesc`)
admits the reversed order of a tie class: for the two tied same-phenotype
control particles of `exTieFrame` (two distinct blind samples, so `N = 2`),
the outcome `[exTieB, exTieA]` is a valid sort of the group, yet it breaks
the tie class's original relative order (the per-size-value filter changes)
and the every-`N`-th selection taken from it differs from the one taken from
the tie-preserving order. -/
theorem unstable_sort_breaks_tie_order :
    sortValuesDesc (phenGroup exTieFrame.rows ("PE", "blue", "fiber")) [exTieB, exTieA] ∧
    ((exTieFrame.rows.map (·.sample)).dedup).length = 2 ∧
    ¬(([exTieB, exTieA].filter (fun p => p.get "blind_size_geom_mean" == (100 : Int))) =
      ((phenGroup exTieFrame.rows ("PE", "blue", "fiber")).filter
        (fun p => p.get "blind_size_geom_mean" == (100 : Int)))) ∧
    everyNth 2 [exTieB, exTieA] ≠
      everyNth 2 (List.insertionSort blindSizeGE
        (phenGroup exTieFrame.rows ("PE", "blue", "fiber"))) := by
  refine ⟨⟨by decide, by decide⟩, by decide, by decide, ?_⟩
  have e1 : everyNth 2 [exTieB, exTieA] = [exTieB] := by
    simp [everyNth_cons, everyNth_nil]
  have e2 : List.insertionSort blindSizeGE
      (phenGroup exTieFrame.rows ("PE", "blue", "fiber")) = [exTieA, exTieB] := by
    decide
  have e3 : everyNth 2 [exTieA, exTieB] = [exTieA] := by
    simp [everyNth_cons, everyNth_nil]
  rw [e1, e2, e3]
  decide

/-- C3 (amended): for a non-empty control input with `n ≥ 1` distinct control
sample names, the synthetic control builder groups the particles by phenotype
triple, sorts each group descending by control size under the contract
`sortValuesDesc` — a permutation of the group non-increasing in control size,
tie order unspecified because `sort_values` runs its default unstable
quicksort — and selects every `n`-th element starting at offset 0.  For
*every* sort outcome the contract admits: the group of size `g` contributes
exactly `⌈g / n⌉` particles, and the selection is a descending-size
subsequence of the sorted group drawn from the group's particles.  The
builder's executable realization (`syntheticGroupPick`, a stable insertion
sort fixing one admissible tie order) satisfies the contract, and
`createSyntheticBlind` concatenates its per-key selections. -/
theorem synthetic_blind_subsampling (blindF : Frame) (h : blindF.rows ≠ []) :
    1 ≤ ((blindF.rows.map (·.sample)).dedup).length ∧
    (createSyntheticBlind blindF).rows =
      ((phenKeys blindF.rows).map (fun k =>
        syntheticGroupPick ((blindF.rows.map (·.sample)).dedup).length
          (phenGroup blindF.rows k))).flatten ∧
    ∀ k : String × String × String,
      sortValuesDesc (phenGroup blindF.rows k)
        (List.insertionSort blindSizeGE (phenGroup blindF.rows k)) ∧
      syntheticGroupPick ((blindF.rows.map (·.sample)).dedup).length
          (phenGroup blindF.rows k) =
        everyNth ((blindF.rows.map (·.sample)).dedup).length
          (List.insertionSort blindSizeGE (phenGroup blindF.rows k)) ∧
      ∀ out : List Particle, sortValuesDesc (phenGroup blindF.rows k) out →
        (everyNth ((blindF.rows.map (·.sample)).dedup).length out).length =
          ((phenGroup blindF.rows k).length +
            ((blindF.rows.map (·.sample)).dedup).length - 1) /
            ((blindF.rows.map (·.sample)).dedup).length ∧
        (everyNth ((blindF.rows.map (·.sample)).dedup).length out).Sublist out ∧
        List.Sorted blindSizeGE
          (everyNth ((blindF.rows.map (·.sample)).dedup).length out) ∧
        (everyNth ((blindF.rows.map (·.sample)).dedup).length out).Subperm
          (phenGroup blindF.rows k) := by
  have hlen : blindF.rows.length ≠ 0 := fun hc => h (List.length_eq_zero.1 hc)
  have hn : 1 ≤ ((blindF.rows.map (·.sample)).dedup).length := by
    rcases List.exists_mem_of_ne_nil blindF.rows h with ⟨p, hp⟩
    have : p.sample ∈ (blindF.rows.map (·.sample)).dedup :=
      List.mem_dedup.2 (List.mem_map.2 ⟨p, hp, rfl⟩)
    exact List.length_pos.2 (List.ne_nil_of_mem this)
  refine ⟨hn, ?_, ?_⟩
  · unfold createSyntheticBlind
    rw [if_neg hlen, if_neg (by omega)]
  · intro k
    refine ⟨⟨List.perm_insertionSort _ _, List.sorted_insertionSort _ _⟩, rfl,
      fun out hout => ⟨?_, everyNth_sublist _ _,
        List.Pairwise.sublist (everyNth_sublist _ _) hout.2,
        (everyNth_sublist _ _).subperm.trans hout.1.subperm⟩⟩
    rw [everyNth_length _ hn]
    congr 1
    have := hout.1.length_eq
    omega

/-- Witness for C3 at the spec's §8 scenario (six particles, three blind
samples): the hypothesis holds, the stable realization is an admissible sort
outcome, and the selection taken from it gives the phenotype group
`⌈6 / 3⌉ = 2` particles. -/
theorem synthetic_blind_subsampling_witness :
    exBlind6.rows ≠ [] ∧
    sortValuesDesc (phenGroup exBlind6.rows ("PS", "clear", "irregular"))
      (List.insertionSort blindSizeGE
        (phenGroup exBlind6.rows ("PS", "clear", "irregular"))) ∧
    (everyNth ((exBlind6.rows.map (·.sample)).dedup).length
        (List.insertionSort blindSizeGE
          (phenGroup exBlind6.rows ("PS", "clear", "irregular")))).length =
      ((phenGroup exBlind6.rows ("PS", "clear", "irregular")).length +
        ((exBlind6.rows.map (·.sample)).dedup).length - 1) /
        ((exBlind6.rows.map (·.sample)).dedup).length := by
  obtain ⟨hn, hstruct, hk⟩ := synthetic_blind_subsampling exBlind6 (by decide)
  obtain ⟨hreal, hpick, hout⟩ := hk ("PS", "clear", "irregular")
  exact ⟨by decide, hreal, (hout _ hreal).1⟩

/-! ## Lemmas for Kahn's algorithm (`resolve_processing_order`) -/

lemma kahnRelax_nil (deg : String → Int) (q : List String) :
    kahnRelax [] deg q = (deg, q) := rfl

lemma kahnRelax_cons (v0 : String) (L : List String) (deg : String → Int) (q : List String) :
    kahnRelax (v0 :: L) deg q =
      kahnRelax L (fun w => if w = v0 then deg v0 - 1 else deg w)
        (if deg v0 - 1 = 0 then q ++ [v0] else q) := rfl

lemma kahnRelax_spec (L : List String) :
    ∀ (deg : String → Int) (q : List String),
      (∀ v, (L.count v : Int) ≤ deg v) →
      (∀ v, (kahnRelax L deg q).1 v = deg v - L.count v) ∧
      (∀ w, w ∈ (kahnRelax L deg q).2 ↔
        w ∈ q ∨ (w ∈ L ∧ deg w = (L.count w : Int))) ∧
      (q.Nodup → (∀ w ∈ q, deg w ≤ 0) → (kahnRelax L deg q).2.Nodup ∧
        (∀ w ∈ (kahnRelax L deg q).2, (kahnRelax L deg q).1 w ≤ 0)) := by
  induction L with
  | nil =>
      intro deg q _
      refine ⟨fun v => by simp [kahnRelax_nil], fun w => by simp [kahnRelax_nil], ?_⟩
      intro hq hq0
      exact ⟨hq, fun w hw => by simpa [kahnRelax_nil] using hq0 w hw⟩
  | cons v0 L ih =>
      intro deg q hbudget
      rw [kahnRelax_cons]
      set deg1 : String → Int := fun w => if w = v0 then deg v0 - 1 else deg w with hdeg1
      set q1 : List String := if deg v0 - 1 = 0 then q ++ [v0] else q with hq1
      have hbudget1 : ∀ v, (L.count v : Int) ≤ deg1 v := by
        intro v
        by_cases hv : v = v0
        · subst hv
          have := hbudget v
          rw [List.count_cons_self] at this
          simp only [hdeg1, if_pos rfl]
          push_cast at this ⊢
          omega
        · have := hbudget v
          rw [List.count_cons_of_ne hv] at this
          simpa [hdeg1, hv] using this
      rcases ih deg1 q1 hbudget1 with ⟨ha, hb, hc⟩
      refine ⟨?_, ?_, ?_⟩
      · intro v
        rw [ha v]
        by_cases hv : v = v0
        · subst hv
          simp only [hdeg1, if_pos rfl, List.count_cons_self]
          push_cast
          omega
        · simp only [hdeg1, if_neg hv, List.count_cons_of_ne hv]
      · intro w
        rw [hb w]
        by_cases hw : w = v0
        · subst hw
          have hqmem : w ∈ q1 ↔ w ∈ q ∨ deg w - 1 = 0 := by
            by_cases hd : deg w - 1 = 0
            · simp [hq1, hd]
            · simp [hq1, hd]
          rw [hqmem]
          simp only [hdeg1, if_pos rfl, List.count_cons_self, List.mem_cons]
          have hbw := hbudget w
          rw [List.count_cons_self] at hbw
          constructor
          · rintro ((hwq | hd) | ⟨_, hcnt⟩)
            · exact Or.inl hwq
            · right
              refine ⟨by simp, ?_⟩
              push_cast at hbw ⊢
              omega
            · right
              refine ⟨by simp, ?_⟩
              push_cast at hcnt ⊢
              omega
          · rintro (hwq | ⟨_, hcnt⟩)
            · exact Or.inl (Or.inl hwq)
            · by_cases hL : w ∈ L
              · right
                refine ⟨hL, ?_⟩
                push_cast at hcnt ⊢
                omega
              · left
                right
                have hc0 : L.count w = 0 := List.count_eq_zero.2 hL
                rw [hc0] at hcnt
                push_cast at hcnt ⊢
                omega
        · have hqmem : w ∈ q1 ↔ w ∈ q := by
            by_cases hd : deg v0 - 1 = 0
            · simp [hq1, hd, hw]
            · simp [hq1, hd]
          rw [hqmem]
          simp only [hdeg1, if_neg hw, List.count_cons_of_ne hw, List.mem_cons]
          tauto
      · intro hq hq0
        have hq1nd : q1.Nodup := by
          by_cases hd : deg v0 - 1 = 0
          · simp only [hq1, if_pos hd]
            rw [List.nodup_append]
            refine ⟨hq, List.nodup_singleton _, ?_⟩
            intro a ha2 hb2
            simp only [List.mem_singleton] at hb2
            subst hb2
            have := hq0 a ha2
            omega
          · simpa [hq1, hd] using hq
        have hq10 : ∀ w ∈ q1, deg1 w ≤ 0 := by
          intro w hw
          by_cases hwv : w = v0
          · subst hwv
            simp only [hdeg1, if_pos rfl]
            have hbw := hbudget w
            rw [List.count_cons_self] at hbw
            by_cases hwq : w ∈ q
            · have := hq0 w hwq
              omega
            · have hd0 : deg w - 1 = 0 := by
                by_cases hd : deg w - 1 = 0
                · exact hd
                · exfalso
                  rw [hq1, if_neg hd] at hw
                  exact hwq hw
              omega
          · simp only [hdeg1, if_neg hwv]
            have : w ∈ q := by
              by_cases hd : deg v0 - 1 = 0
              · rw [hq1, if_pos hd] at hw
                rcases List.mem_append.1 hw with h | h
                · exact h
                · simp only [List.mem_singleton] at h
                  exact absurd h hwv
              · rwa [hq1, if_neg hd] at hw
            exact hq0 w this
        exact hc hq1nd hq10

lemma mem_adjOf_iff {cfg : Config} {u w : String} :
    w ∈ adjOf cfg u ↔ ∃ e ∈ depEdges cfg, e.1 = u ∧ e.2 = w := by
  simp only [adjOf, List.mem_map, List.mem_filter]
  constructor
  · rintro ⟨e, ⟨he, heu⟩, rfl⟩
    exact ⟨e, he, by simpa using heu, rfl⟩
  · rintro ⟨e, he, heu, rfl⟩
    exact ⟨e, ⟨he, by simpa using heu⟩, rfl⟩

lemma mem_allFiles_of_edge {cfg : Config} :
    ∀ e ∈ depEdges cfg, e.1 ∈ allFiles cfg ∧ e.2 ∈ allFiles cfg := by
  intro e he
  simp only [depEdges, List.mem_flatMap, List.mem_map, List.mem_filter] at he
  rcases he with ⟨entry, hentry, c, ⟨hc, _⟩, rfl⟩
  constructor
  · exact List.mem_dedup.2 (List.mem_flatMap.2 ⟨entry, hentry, List.mem_cons.2 (Or.inr hc)⟩)
  · exact List.mem_dedup.2 (List.mem_flatMap.2 ⟨entry, hentry, List.mem_cons.2 (Or.inl rfl)⟩)

lemma count_adjOf (cfg : Config) (u v : String) :
    (adjOf cfg u).count v = (depEdges cfg).countP (fun e => e.2 == v && e.1 == u) := by
  unfold adjOf
  rw [List.count_eq_countP, List.countP_map, List.countP_filter]
  apply List.countP_congr
  intro e _
  simp [Function.comp, Bool.and_eq_true, beq_iff_eq, and_comm]

lemma countP_or_disjoint {α : Type} (p1 p2 p3 : α → Bool) :
    ∀ l : List α,
      (∀ a ∈ l, p1 a = (p2 a || p3 a) ∧ ¬(p2 a = true ∧ p3 a = true)) →
      l.countP p1 = l.countP p2 + l.countP p3 := by
  intro l
  induction l with
  | nil => simp
  | cons a l ih =>
      intro h
      rcases h a (List.mem_cons_self a l) with ⟨h1, h2⟩
      rw [List.countP_cons, List.countP_cons, List.countP_cons,
        ih (fun x hx => h x (List.mem_cons.2 (Or.inr hx)))]
      by_cases hp2 : p2 a = true
      · have hp3 : ¬(p3 a = true) := fun hc => h2 ⟨hp2, hc⟩
        have hp1 : p1 a = true := by rw [h1, hp2]; simp
        rw [if_pos hp1, if_pos hp2, if_neg hp3]
        omega
      · by_cases hp3 : p3 a = true
        · have hp1 : p1 a = true := by rw [h1, hp3]; simp
          rw [if_pos hp1, if_neg hp2, if_pos hp3]
          omega
        · have hp1 : ¬(p1 a = true) := by
            rw [h1]
            simp only [Bool.or_eq_true]
            tauto
          rw [if_neg hp1, if_neg hp2, if_neg hp3]
          omega

lemma countP_edges_split (u v : String) (D : List String) (hu : u ∉ D) :
    ∀ l : List (String × String),
      l.countP (fun e => e.2 == v && !(D.contains e.1)) =
        l.countP (fun e => e.2 == v && !((D ++ [u]).contains e.1)) +
        l.countP (fun e => e.2 == v && e.1 == u) := by
  intro l
  apply countP_or_disjoint
  intro e _
  have hmem : ((D ++ [u]).contains e.1) = (D.contains e.1 || (e.1 == u)) := by
    by_cases hD : e.1 ∈ D
    · by_cases h1 : e.1 = u
      · simp [hD, h1]
      · simp [hD, h1]
    · by_cases h1 : e.1 = u
      · simp [hD, h1]
      · simp [hD, h1]
  by_cases h2 : e.2 = v
  · have hb2 : (e.2 == v) = true := by simpa using h2
    by_cases h1 : e.1 = u
    · have hb1 : (e.1 == u) = true := by simpa using h1
      have hbD : (D.contains e.1) = false := by
        subst h1
        simpa using hu
      constructor
      · rw [hmem, hb2, hb1, hbD]
        simp
      · rintro ⟨hc1, _⟩
        rw [hmem, hb2, hb1, hbD] at hc1
        simp at hc1
    · have hb1 : (e.1 == u) = false := by simpa using h1
      constructor
      · rw [hmem, hb2, hb1]
        by_cases hD : (D.contains e.1) = true
        · rw [hD]; simp
        · rw [Bool.not_eq_true] at hD
          rw [hD]; simp
      · rintro ⟨_, hc2⟩
        rw [hb2, hb1] at hc2
        simp at hc2
  · have hb2 : (e.2 == v) = false := by simpa using h2
    constructor
    · rw [hb2]; simp
    · rintro ⟨hc1, _⟩
      rw [hb2] at hc1
      simp at hc1

lemma remDeg_nil (cfg : Config) (v : String) : remDeg cfg [] v = inDeg0 cfg v := by
  unfold remDeg inDeg0
  congr 1
  apply List.countP_congr
  intro e _
  simp

lemma remDeg_nonneg (cfg : Config) (D : List String) (v : String) :
    0 ≤ remDeg cfg D v := by
  unfold remDeg
  positivity

lemma remDeg_append (cfg : Config) (D : List String) (u v : String) (hu : u ∉ D) :
    remDeg cfg D v = remDeg cfg (D ++ [u]) v + ((adjOf cfg u).count v : Int) := by
  unfold remDeg
  rw [count_adjOf]
  rw [countP_edges_split u v D hu (depEdges cfg)]
  push_cast
  ring

lemma subset_of_nodup_length {D N : List String} (hD : D.Nodup)
    (hsub : ∀ v ∈ D, v ∈ N) (hlen : N.length ≤ D.length) : ∀ v ∈ N, v ∈ D := by
  intro v hv
  by_contra hvD
  have hnd : (v :: D).Nodup := List.nodup_cons.2 ⟨hvD, hD⟩
  have hsub2 : (v :: D) ⊆ N := by
    intro w hw
    rcases List.mem_cons.1 hw with rfl | hw
    · exact hv
    · exact hsub w hw
  have := (List.subperm_of_subset hnd hsub2).length_le
  simp only [List.length_cons] at this
  omega

lemma append_singleton_eq_cases {α : Type} {D l1 l2 : List α} {u x : α}
    (h : D ++ [u] = l1 ++ x :: l2) :
    (l1 = D ∧ x = u ∧ l2 = []) ∨ ∃ l2', l2 = l2' ++ [u] ∧ D = l1 ++ x :: l2' := by
  rcases List.eq_nil_or_concat l2 with rfl | ⟨l2', a, rfl⟩
  · rcases List.append_inj' h (by simp) with ⟨h1, h2⟩
    simp only [List.cons.injEq] at h2
    exact Or.inl ⟨h1.symm, h2.1.symm, rfl⟩
  · right
    rw [List.concat_eq_append] at h
    have h' : D ++ [u] = (l1 ++ x :: l2') ++ [a] := by
      rw [h]; simp
    rcases List.append_inj' h' (by simp) with ⟨h1, h2⟩
    simp only [List.cons.injEq] at h2
    refine ⟨l2', ?_, h1⟩
    rw [List.concat_eq_append, h2.1]

lemma kahnLoop_spec (cfg : Config) (rank : String → Nat)
    (hrank : ∀ e ∈ depEdges cfg, rank e.1 < rank e.2) :
    ∀ (fuel : Nat) (queue : List String) (deg : String → Int) (D : List String),
      KahnInv cfg queue deg D →
      (allFiles cfg).length ≤ fuel + D.length →
      (kahnLoop (adjOf cfg) fuel queue deg D).Nodup ∧
      (∀ v ∈ kahnLoop (adjOf cfg) fuel queue deg D, v ∈ allFiles cfg) ∧
      (∀ v ∈ allFiles cfg, v ∈ kahnLoop (adjOf cfg) fuel queue deg D) ∧
      (∀ e ∈ depEdges cfg, ∀ l1 l2,
        kahnLoop (adjOf cfg) fuel queue deg D = l1 ++ e.2 :: l2 → e.1 ∈ l1) := by
  intro fuel
  induction fuel with
  | zero =>
      intro queue deg D hinv hfuel
      rcases hinv with ⟨h1, h2, _, _, _, h6⟩
      have hD : (kahnLoop (adjOf cfg) 0 queue deg D) = D := rfl
      rw [hD]
      have hDnd : D.Nodup := (List.nodup_append.1 h1).1
      have hDN : ∀ v ∈ D, v ∈ allFiles cfg := fun v hv => h2 v (List.mem_append.2 (Or.inl hv))
      exact ⟨hDnd, hDN, subset_of_nodup_length hDnd hDN (by omega), h6⟩
  | succ fuel ih =>
      intro queue deg D hinv hfuel
      rcases queue with _ | ⟨u, q⟩
      · rcases hinv with ⟨h1, h2, h3, h4, _, h6⟩
        have hD : (kahnLoop (adjOf cfg) (fuel + 1) [] deg D) = D := rfl
        rw [hD]
        have hDnd : D.Nodup := by simpa using h1
        have hDN : ∀ v ∈ D, v ∈ allFiles cfg := fun v hv => h2 v (by simpa using hv)
        have key : ∀ (n : Nat), ∀ v ∈ allFiles cfg, rank v ≤ n → v ∈ D := by
          intro n
          induction n using Nat.strong_induction_on with
          | _ n ihn =>
              intro v hv hrv
              by_contra hvD
              have hdeg : deg v ≠ 0 := by
                intro hc
                exact hvD (by simpa using (h4 v hv).1 hc)
              have hpos : 0 < remDeg cfg D v :=
                lt_of_le_of_ne (remDeg_nonneg cfg D v)
                  (fun hc => hdeg (by rw [h3 v, ← hc]))
              have hcpos : 0 < (depEdges cfg).countP
                  (fun e => e.2 == v && !(D.contains e.1)) := by
                unfold remDeg at hpos
                exact_mod_cast hpos
              rcases List.countP_pos.1 hcpos with ⟨e, he, hpe⟩
              simp only [Bool.and_eq_true, beq_iff_eq, Bool.not_eq_true'] at hpe
              have he2 : e.2 = v := hpe.1
              have he1 : e.1 ∉ D := by simpa using hpe.2
              have hlt : rank e.1 < rank v := he2 ▸ hrank e he
              have he1N : e.1 ∈ allFiles cfg := (mem_allFiles_of_edge e he).1
              rcases Nat.lt_or_ge n (rank e.1 + 1) with hn | hn
              · omega
              · exact he1 (ihn (rank e.1) (by omega) e.1 he1N le_rfl)
        exact ⟨hDnd, hDN, fun v hv => key (rank v) v hv le_rfl, h6⟩
      · rcases hinv with ⟨h1, h2, h3, h4, h5, h6⟩
        have hndapp := List.nodup_append.1 h1
        have huD : u ∉ D := fun hu => hndapp.2.2 hu (List.mem_cons_self u q)
        have huq : u ∉ q := (List.nodup_cons.1 hndapp.2.1).1
        have hqnd : q.Nodup := (List.nodup_cons.1 hndapp.2.1).2
        have huN : u ∈ allFiles cfg :=
          h2 u (List.mem_append.2 (Or.inr (List.mem_cons_self u q)))
        have hbudget : ∀ v, (((adjOf cfg u).count v : Nat) : Int) ≤ deg v := by
          intro v
          rw [h3 v]
          unfold remDeg
          rw [count_adjOf]
          have hle : (depEdges cfg).countP (fun e => e.2 == v && e.1 == u) ≤
              (depEdges cfg).countP (fun e => e.2 == v && !(D.contains e.1)) := by
            apply List.countP_mono_left
            intro e _ hpe
            simp only [Bool.and_eq_true, beq_iff_eq] at hpe
            have heD : e.1 ∉ D := hpe.2 ▸ huD
            simp [hpe.1, heD]
          exact_mod_cast hle
        have hq0 : ∀ w ∈ q, deg w ≤ 0 := by
          intro w hw
          have hwN : w ∈ allFiles cfg := h2 w (by simp [hw])
          have : deg w = 0 := (h4 w hwN).2 (by simp [hw])
          omega
        rcases kahnRelax_spec (adjOf cfg u) deg q hbudget with ⟨hA, hB, hCf⟩
        rcases hCf hqnd hq0 with ⟨hq'nd, hq'le⟩
        have hdeg' : ∀ v, (kahnRelax (adjOf cfg u) deg q).1 v = remDeg cfg (D ++ [u]) v := by
          intro v
          rw [hA v, h3 v, remDeg_append cfg D u v huD]
          ring
        have hadjN : ∀ w ∈ adjOf cfg u, w ∈ allFiles cfg := by
          intro w hw
          rcases mem_adjOf_iff.1 hw with ⟨e, he, _, he2⟩
          exact he2 ▸ (mem_allFiles_of_edge e he).2
        have holdmem : ∀ w, w ∈ D ++ [u] → w ∈ D ++ u :: q := by
          intro w hw
          rcases List.mem_append.1 hw with h | h
          · simp [h]
          · simp only [List.mem_singleton] at h
            simp [h]
        have hfresh : ∀ w ∈ (kahnRelax (adjOf cfg u) deg q).2, w ∉ D ++ [u] := by
          intro w hw hwDu
          have hwN : w ∈ allFiles cfg := h2 w (holdmem w hwDu)
          have hdw : deg w = 0 := (h4 w hwN).2 (holdmem w hwDu)
          rcases (hB w).1 hw with hwq | ⟨hwadj, hwc⟩
          · rcases List.mem_append.1 hwDu with h | h
            · exact hndapp.2.2 h (by simp [hwq])
            · simp only [List.mem_singleton] at h
              subst h
              exact huq hwq
          · have : 0 < (adjOf cfg u).count w := List.count_pos_iff_mem.2 hwadj
            omega
        have hinv' : KahnInv cfg (kahnRelax (adjOf cfg u) deg q).2
            (kahnRelax (adjOf cfg u) deg q).1 (D ++ [u]) := by
          refine ⟨?_, ?_, hdeg', ?_, ?_, ?_⟩
          · rw [List.nodup_append]
            refine ⟨?_, hq'nd, fun a ha haq => hfresh a haq ha⟩
            rw [List.nodup_append]
            refine ⟨hndapp.1, List.nodup_singleton u, ?_⟩
            intro a ha hb
            simp only [List.mem_singleton] at hb
            subst hb
            exact huD ha
          · intro v hv
            rcases List.mem_append.1 hv with hv | hv
            · exact h2 v (holdmem v hv)
            · rcases (hB v).1 hv with hvq | ⟨hvadj, _⟩
              · exact h2 v (by simp [hvq])
              · exact hadjN v hvadj
          · intro v hvN
            constructor
            · intro h0
              rw [hA v] at h0
              by_cases hc : (adjOf cfg u).count v = 0
              · have hdv : deg v = 0 := by
                  rw [hc] at h0
                  simpa using h0
                have hmem := (h4 v hvN).1 hdv
                rcases List.mem_append.1 hmem with hm | hm
                · exact List.mem_append.2 (Or.inl (List.mem_append.2 (Or.inl hm)))
                · rcases List.mem_cons.1 hm with hm | hm
                  · exact List.mem_append.2 (Or.inl (List.mem_append.2 (Or.inr (by simp [hm]))))
                  · exact List.mem_append.2 (Or.inr ((hB v).2 (Or.inl hm)))
              · have hvadj : v ∈ adjOf cfg u :=
                  List.count_pos_iff_mem.1 (Nat.pos_of_ne_zero hc)
                have hdv : deg v = (((adjOf cfg u).count v : Nat) : Int) := by omega
                exact List.mem_append.2 (Or.inr ((hB v).2 (Or.inr ⟨hvadj, hdv⟩)))
            · intro hv
              rcases List.mem_append.1 hv with hv | hv
              · have hdv : deg v = 0 := (h4 v hvN).2 (holdmem v hv)
                have hb := hbudget v
                rw [hA v]
                have hnn : (0 : Int) ≤ (((adjOf cfg u).count v : Nat) : Int) := by positivity
                omega
              · have hle := hq'le v hv
                have hge : 0 ≤ (kahnRelax (adjOf cfg u) deg q).1 v := by
                  rw [hdeg' v]
                  exact remDeg_nonneg cfg (D ++ [u]) v
                omega
          · intro e he hq'
            rcases (hB e.2).1 hq' with hq | ⟨hadj, hc⟩
            · exact List.mem_append.2 (Or.inl (h5 e he (by simp [hq])))
            · have h0 : (kahnRelax (adjOf cfg u) deg q).1 e.2 = 0 := by
                rw [hA]
                omega
              rw [hdeg' e.2] at h0
              unfold remDeg at h0
              have hcount : (depEdges cfg).countP
                  (fun x => x.2 == e.2 && !((D ++ [u]).contains x.1)) = 0 := by
                exact_mod_cast h0
              rw [List.countP_eq_zero] at hcount
              have hce := hcount e he
              have himp : e.1 ∉ D → e.1 = u := by simpa using hce
              by_cases hD : e.1 ∈ D
              · exact List.mem_append.2 (Or.inl hD)
              · exact List.mem_append.2 (Or.inr (by simp [himp hD]))
          · intro e he l1 l2 hsp
            rcases append_singleton_eq_cases hsp with ⟨hl1, hxu, _⟩ | ⟨l2', _, hD2⟩
            · have : e.1 ∈ D := h5 e he (by rw [hxu]; exact List.mem_cons_self u q)
              rw [hl1]
              exact this
            · exact h6 e he l1 l2' hD2
        have hred : kahnLoop (adjOf cfg) (fuel + 1) (u :: q) deg D =
            kahnLoop (adjOf cfg) fuel (kahnRelax (adjOf cfg u) deg q).2
              (kahnRelax (adjOf cfg u) deg q).1 (D ++ [u]) := rfl
        rw [hred]
        exact ih (kahnRelax (adjOf cfg u) deg q).2 (kahnRelax (adjOf cfg u) deg q).1
          (D ++ [u]) hinv' (by simp; omega)

lemma find?_config {cfg : Config} (hkeys : (cfg.map (·.1)).Nodup) :
    ∀ {t : String} {cs : List String}, (t, cs) ∈ cfg →
      cfg.find? (fun e => e.1 == t) = some (t, cs) := by
  induction cfg with
  | nil => intro t cs h; simp at h
  | cons e es ih =>
      intro t cs h
      simp only [List.map_cons, List.nodup_cons] at hkeys
      by_cases het : e.1 = t
      · have : e = (t, cs) := by
          rcases List.mem_cons.1 h with h | h
          · exact h.symm
          · exfalso
            exact hkeys.1 (het ▸ List.mem_map.2 ⟨(t, cs), h, het ▸ rfl⟩)
        rw [List.find?_cons_of_pos _ (by simpa using het), this]
      · have hm : (t, cs) ∈ es := by
          rcases List.mem_cons.1 h with h | h
          · exact absurd (by rw [← h]) het
          · exact h
        rw [List.find?_cons_of_neg _ (by simpa using het)]
        exact ih hkeys.2 hm

lemma key_mem_allFiles {cfg : Config} {t : String} {cs : List String}
    (h : (t, cs) ∈ cfg) : t ∈ allFiles cfg :=
  List.mem_dedup.2 (List.mem_flatMap.2 ⟨(t, cs), h, by simp⟩)

/-! ## C4: the resolved processing order is complete and dependency-ordered -/

/-- C4: for every acyclic correction configuration — acyclicity given by a
topological rank on the dependency graph, unique target names as in a Python
dict — the resolved processing order is a permutation of the declared
corrections (every declared target exactly once, paired with its declared
control list), and whenever a control file of some target is itself a
declared target, the step correcting that control appears strictly earlier
in the order. -/
theorem processing_order_complete_and_dependency_ordered (cfg : Config)
    (rank : String → Nat) (hkeys : (cfg.map (·.1)).Nodup)
    (hrank : ∀ e ∈ depEdges cfg, rank e.1 < rank e.2) :
    (resolveProcessingOrder cfg).Perm cfg ∧
    (∀ t cs c csc, (t, cs) ∈ cfg → c ∈ cs → (c, csc) ∈ cfg →
      [(c, csc), (t, cs)].Sublist (resolveProcessingOrder cfg)) := by
  have hNnd : (allFiles cfg).Nodup := List.nodup_dedup _
  have hinv0 : KahnInv cfg ((allFiles cfg).filter (fun f => inDeg0 cfg f == 0))
      (inDeg0 cfg) [] := by
    refine ⟨by simpa using hNnd.filter _, ?_, ?_, ?_, ?_, ?_⟩
    · intro v hv
      simp only [List.nil_append] at hv
      exact (List.mem_filter.1 hv).1
    · intro v
      exact (remDeg_nil cfg v).symm
    · intro v hvN
      simp only [List.nil_append]
      constructor
      · intro h0
        exact List.mem_filter.2 ⟨hvN, by simp [h0]⟩
      · intro hm
        have := (List.mem_filter.1 hm).2
        simpa using this
    · intro e he hq
      have h0 : inDeg0 cfg e.2 = 0 := by
        have := (List.mem_filter.1 hq).2
        simpa using this
      have hpos : 0 < (depEdges cfg).countP (fun x => x.2 == e.2) :=
        List.countP_pos.2 ⟨e, he, by simp⟩
      unfold inDeg0 at h0
      omega
    · intro e _ l1 l2 h
      exact absurd h (by simp)
  obtain ⟨hD'nd, hD'N, hND', hprec⟩ := kahnLoop_spec cfg rank hrank
    (allFiles cfg).length ((allFiles cfg).filter (fun f => inDeg0 cfg f == 0))
    (inDeg0 cfg) [] hinv0 (by simp)
  have hres : resolveProcessingOrder cfg =
      (kahnLoop (adjOf cfg) (allFiles cfg).length
        ((allFiles cfg).filter (fun f => inDeg0 cfg f == 0)) (inDeg0 cfg) []).filterMap
        (fun f => cfg.find? (fun e => e.1 == f)) := rfl
  constructor
  · have hg : ∀ (f : String) (p : String × List String),
        cfg.find? (fun e => e.1 == f) = some p → p.1 = f := by
      intro f p hp
      simpa using List.find?_some hp
    have houtnd : ∀ (L : List String), L.Nodup →
        (L.filterMap (fun f => cfg.find? (fun e => e.1 == f))).Nodup := by
      intro L
      induction L with
      | nil => intro _; simp
      | cons f fs ih =>
          intro hnd
          rcases hgf : cfg.find? (fun e => e.1 == f) with _ | p
          · simp only [List.filterMap_cons, hgf]
            exact ih (List.nodup_cons.1 hnd).2
          · simp only [List.filterMap_cons, hgf]
            refine List.nodup_cons.2 ⟨?_, ih (List.nodup_cons.1 hnd).2⟩
            intro hmem
            rcases List.mem_filterMap.1 hmem with ⟨g, hg', hgg⟩
            have h1 : p.1 = f := hg f p hgf
            have h2 : p.1 = g := hg g p hgg
            exact (List.nodup_cons.1 hnd).1 (h1 ▸ h2 ▸ hg')
    have hsub1 : (resolveProcessingOrder cfg).Subperm cfg := by
      apply List.subperm_of_subset
      · rw [hres]
        exact houtnd _ hD'nd
      · intro y hy
        rw [hres] at hy
        rcases List.mem_filterMap.1 hy with ⟨f, _, hgf⟩
        exact List.mem_of_find?_eq_some hgf
    have hsub2 : cfg.Subperm (resolveProcessingOrder cfg) := by
      apply List.subperm_of_subset (hkeys.of_map _)
      intro y hy
      obtain ⟨t, cs⟩ := y
      rw [hres]
      exact List.mem_filterMap.2 ⟨t, hND' t (key_mem_allFiles hy), find?_config hkeys hy⟩
    exact hsub1.antisymm hsub2
  · intro t cs c csc ht hc hcsc
    have hedge : (c, t) ∈ depEdges cfg := by
      unfold depEdges
      rw [List.mem_flatMap]
      refine ⟨(t, cs), ht, List.mem_map.2 ⟨c, List.mem_filter.2 ⟨hc, ?_⟩, rfl⟩⟩
      unfold isTarget
      rw [List.any_eq_true]
      exact ⟨(c, csc), hcsc, by simp⟩
    have htD' : t ∈ kahnLoop (adjOf cfg) (allFiles cfg).length
        ((allFiles cfg).filter (fun f => inDeg0 cfg f == 0)) (inDeg0 cfg) [] :=
      hND' t (key_mem_allFiles ht)
    rcases List.append_of_mem htD' with ⟨l1, l2, hsplit⟩
    have hcl1 : c ∈ l1 := hprec (c, t) hedge l1 l2 hsplit
    have hgc : cfg.find? (fun e => e.1 == c) = some (c, csc) := find?_config hkeys hcsc
    have hgt : cfg.find? (fun e => e.1 == t) = some (t, cs) := find?_config hkeys ht
    rw [hres, hsplit, List.filterMap_append]
    have hfmt : (t :: l2).filterMap (fun f => cfg.find? (fun e => e.1 == f)) =
        (t, cs) :: l2.filterMap (fun f => cfg.find? (fun e => e.1 == f)) := by
      rw [List.filterMap_cons, hgt]
    rw [hfmt]
    have hcfm : (c, csc) ∈ l1.filterMap (fun f => cfg.find? (fun e => e.1 == f)) :=
      List.mem_filterMap.2 ⟨c, hcl1, hgc⟩
    rcases List.append_of_mem hcfm with ⟨a, b, hab⟩
    rw [hab]
    have hassoc : (a ++ (c, csc) :: b) ++ (t, cs) ::
        l2.filterMap (fun f => cfg.find? (fun e => e.1 == f)) =
        a ++ (c, csc) :: (b ++ (t, cs) ::
          l2.filterMap (fun f => cfg.find? (fun e => e.1 == f))) := by
      simp
    rw [hassoc]
    have hs1 : [(t, cs)].Sublist ((t, cs) ::
        l2.filterMap (fun f => cfg.find? (fun e => e.1 == f))) :=
      List.Sublist.cons₂ _ (List.nil_sublist _)
    have hs2 : [(c, csc), (t, cs)].Sublist ((c, csc) :: (b ++ (t, cs) ::
        l2.filterMap (fun f => cfg.find? (fun e => e.1 == f)))) :=
      List.Sublist.cons₂ _ (hs1.trans (List.sublist_append_right b _))
    exact hs2.trans (List.sublist_append_right a _)

/-- Witness for C4 at the chained two-step fixture configuration. -/
theorem processing_order_witness :
    ((exCfg.map (·.1)).Nodup) ∧
    (∀ e ∈ depEdges exCfg, exRank e.1 < exRank e.2) ∧
    (resolveProcessingOrder exCfg).Perm exCfg := by
  refine ⟨by decide, by decide, ?_⟩
  exact (processing_order_complete_and_dependency_ordered exCfg exRank
    (by decide) (by decide)).1

/-! ## Lemmas for the DFS cycle check (`detect_circular_dependencies`) -/

lemma safe_of_deps {cfg : Config} {node : String}
    (h : ∀ d, dependsOn cfg node d → ¬ReachesCycle cfg d) :
    ¬ReachesCycle cfg node := by
  rintro ⟨w, hrt, hcyc⟩
  rcases Relation.ReflTransGen.cases_head hrt with heq | ⟨d, hd, hdw⟩
  · subst heq
    rcases Relation.TransGen.head'_iff.1 hcyc with ⟨d, hd, hdw⟩
    exact h d hd ⟨node, hdw, hcyc⟩
  · exact h d hd ⟨w, hdw, hcyc⟩

lemma dep_mem_depMap {cfg : Config} (hkeys : (cfg.map (·.1)).Nodup)
    {node d : String} (hd : dependsOn cfg node d) :
    d ∈ (depMap cfg node).getD [] := by
  rcases hd with ⟨cs, hmem, hdc⟩
  have hfind : depMap cfg node = some cs := by
    unfold depMap
    rw [find?_config hkeys hmem]
    rfl
  rw [hfind]
  exact hdc

lemma dfs_sound (cfg : Config) (hkeys : (cfg.map (·.1)).Nodup) :
    ∀ fuel : Nat,
      (∀ (node : String) (visiting visited : List String),
        (∀ v ∈ visited, ¬ReachesCycle cfg v) →
        (∀ v ∈ (hasCycle cfg fuel node visiting visited).2, ¬ReachesCycle cfg v) ∧
        (∀ v ∈ visited, v ∈ (hasCycle cfg fuel node visiting visited).2) ∧
        ((hasCycle cfg fuel node visiting visited).1 = false →
          node ∈ (hasCycle cfg fuel node visiting visited).2)) ∧
      (∀ (ds : List String) (visiting visited : List String),
        (∀ v ∈ visited, ¬ReachesCycle cfg v) →
        (∀ v ∈ (depsLoop cfg fuel ds visiting visited).2, ¬ReachesCycle cfg v) ∧
        (∀ v ∈ visited, v ∈ (depsLoop cfg fuel ds visiting visited).2) ∧
        ((depsLoop cfg fuel ds visiting visited).1 = false →
          ∀ d ∈ ds, d ∈ (depsLoop cfg fuel ds visiting visited).2)) := by
  intro fuel
  induction fuel with
  | zero =>
      constructor
      · intro node visiting visited hs
        have hred : hasCycle cfg 0 node visiting visited = (true, visited) := by
          rw [hasCycle]
        rw [hred]
        exact ⟨hs, fun v hv => hv, by simp⟩
      · intro ds visiting visited hs
        cases ds with
        | nil =>
            have hred : depsLoop cfg 0 [] visiting visited = (false, visited) := by
              rw [depsLoop]
            rw [hred]
            exact ⟨hs, fun v hv => hv, fun _ d hd => absurd hd (by simp)⟩
        | cons d ds =>
            have hred : depsLoop cfg 0 (d :: ds) visiting visited = (true, visited) := by
              rw [depsLoop]
              rw [hasCycle]
              simp
            rw [hred]
            exact ⟨hs, fun v hv => hv, by simp⟩
  | succ fuel ih =>
      have Hhas : ∀ (node : String) (visiting visited : List String),
          (∀ v ∈ visited, ¬ReachesCycle cfg v) →
          (∀ v ∈ (hasCycle cfg (fuel + 1) node visiting visited).2, ¬ReachesCycle cfg v) ∧
          (∀ v ∈ visited, v ∈ (hasCycle cfg (fuel + 1) node visiting visited).2) ∧
          ((hasCycle cfg (fuel + 1) node visiting visited).1 = false →
            node ∈ (hasCycle cfg (fuel + 1) node visiting visited).2) := by
        intro node visiting visited hs
        by_cases hvtg : node ∈ visiting
        · have hred : hasCycle cfg (fuel + 1) node visiting visited = (true, visited) := by
            rw [hasCycle]
            simp [hvtg]
          rw [hred]
          exact ⟨hs, fun v hv => hv, by simp⟩
        · by_cases hvd : node ∈ visited
          · have hred : hasCycle cfg (fuel + 1) node visiting visited = (false, visited) := by
              rw [hasCycle]
              simp [hvtg, hvd]
            rw [hred]
            exact ⟨hs, fun v hv => hv, fun _ => hvd⟩
          · obtain ⟨hsafe, hmono, hfalse⟩ :=
              ih.2 ((depMap cfg node).getD []) (node :: visiting) visited hs
            by_cases hrb : (depsLoop cfg fuel ((depMap cfg node).getD [])
                (node :: visiting) visited).1 = true
            · have hred : hasCycle cfg (fuel + 1) node visiting visited =
                  (true, (depsLoop cfg fuel ((depMap cfg node).getD [])
                    (node :: visiting) visited).2) := by
                rw [hasCycle]
                simp [hvtg, hvd, hrb]
              rw [hred]
              exact ⟨hsafe, fun v hv => hmono v hv, by simp⟩
            · have hrb' : (depsLoop cfg fuel ((depMap cfg node).getD [])
                  (node :: visiting) visited).1 = false := by
                simpa using hrb
              have hred : hasCycle cfg (fuel + 1) node visiting visited =
                  (false, node :: (depsLoop cfg fuel ((depMap cfg node).getD [])
                    (node :: visiting) visited).2) := by
                rw [hasCycle]
                simp [hvtg, hvd, hrb']
              rw [hred]
              have hnodesafe : ¬ReachesCycle cfg node := by
                apply safe_of_deps
                intro d hd
                exact hsafe d (hfalse hrb' d (dep_mem_depMap hkeys hd))
              refine ⟨?_, ?_, fun _ => List.mem_cons_self _ _⟩
              · intro v hv
                rcases List.mem_cons.1 hv with rfl | hv
                · exact hnodesafe
                · exact hsafe v hv
              · intro v hv
                exact List.mem_cons.2 (Or.inr (hmono v hv))
      refine ⟨Hhas, ?_⟩
      intro ds
      induction ds with
      | nil =>
          intro visiting visited hs
          have hred : depsLoop cfg (fuel + 1) [] visiting visited = (false, visited) := by
            rw [depsLoop]
          rw [hred]
          exact ⟨hs, fun v hv => hv, fun _ d hd => absurd hd (by simp)⟩
      | cons d ds ihds =>
          intro visiting visited hs
          obtain ⟨hs1, hm1, hf1⟩ := Hhas d visiting visited hs
          by_cases hr1 : (hasCycle cfg (fuel + 1) d visiting visited).1 = true
          · have hred : depsLoop cfg (fuel + 1) (d :: ds) visiting visited =
                (true, (hasCycle cfg (fuel + 1) d visiting visited).2) := by
              rw [depsLoop]
              simp [hr1]
            rw [hred]
            exact ⟨hs1, hm1, by simp⟩
          · have hr1' : (hasCycle cfg (fuel + 1) d visiting visited).1 = false := by
              simpa using hr1
            have hred : depsLoop cfg (fuel + 1) (d :: ds) visiting visited =
                depsLoop cfg (fuel + 1) ds visiting
                  (hasCycle cfg (fuel + 1) d visiting visited).2 := by
              rw [depsLoop]
              simp [hr1']
            rw [hred]
            obtain ⟨hs2, hm2, hf2⟩ := ihds visiting
              (hasCycle cfg (fuel + 1) d visiting visited).2 hs1
            refine ⟨hs2, fun v hv => hm2 v (hm1 v hv), ?_⟩
            intro hres x hx
            rcases List.mem_cons.1 hx with rfl | hx
            · exact hm2 x (hf1 hr1')
            · exact hf2 hres x hx

lemma dfs_visited_mono (cfg : Config) :
    ∀ fuel : Nat,
      (∀ (node : String) (visiting visited : List String),
        ∀ v ∈ visited, v ∈ (hasCycle cfg fuel node visiting visited).2) ∧
      (∀ (ds : List String) (visiting visited : List String),
        ∀ v ∈ visited, v ∈ (depsLoop cfg fuel ds visiting visited).2) := by
  intro fuel
  induction fuel with
  | zero =>
      constructor
      · intro node visiting visited v hv
        have hred : hasCycle cfg 0 node visiting visited = (true, visited) := by
          rw [hasCycle]
        rw [hred]
        exact hv
      · intro ds visiting visited v hv
        cases ds with
        | nil =>
            have hred : depsLoop cfg 0 [] visiting visited = (false, visited) := by
              rw [depsLoop]
            rw [hred]
            exact hv
        | cons d ds =>
            have hred : depsLoop cfg 0 (d :: ds) visiting visited = (true, visited) := by
              rw [depsLoop]
              rw [hasCycle]
              simp
            rw [hred]
            exact hv
  | succ fuel ih =>
      have Hhas : ∀ (node : String) (visiting visited : List String),
          ∀ v ∈ visited, v ∈ (hasCycle cfg (fuel + 1) node visiting visited).2 := by
        intro node visiting visited v hv
        by_cases hvtg : node ∈ visiting
        · have hred : hasCycle cfg (fuel + 1) node visiting visited = (true, visited) := by
            rw [hasCycle]
            simp [hvtg]
          rw [hred]
          exact hv
        · by_cases hvd : node ∈ visited
          · have hred : hasCycle cfg (fuel + 1) node visiting visited = (false, visited) := by
              rw [hasCycle]
              simp [hvtg, hvd]
            rw [hred]
            exact hv
          · have hm := ih.2 ((depMap cfg node).getD []) (node :: visiting) visited v hv
            by_cases hrb : (depsLoop cfg fuel ((depMap cfg node).getD [])
                (node :: visiting) visited).1 = true
            · have hred : hasCycle cfg (fuel + 1) node visiting visited =
                  (true, (depsLoop cfg fuel ((depMap cfg node).getD [])
                    (node :: visiting) visited).2) := by
                rw [hasCycle]
                simp [hvtg, hvd, hrb]
              rw [hred]
              exact hm
            · have hrb' : (depsLoop cfg fuel ((depMap cfg node).getD [])
                  (node :: visiting) visited).1 = false := by
                simpa using hrb
              have hred : hasCycle cfg (fuel + 1) node visiting visited =
                  (false, node :: (depsLoop cfg fuel ((depMap cfg node).getD [])
                    (node :: visiting) visited).2) := by
                rw [hasCycle]
                simp [hvtg, hvd, hrb']
              rw [hred]
              exact List.mem_cons.2 (Or.inr hm)
      refine ⟨Hhas, ?_⟩
      intro ds
      induction ds with
      | nil =>
          intro visiting visited v hv
          have hred : depsLoop cfg (fuel + 1) [] visiting visited = (false, visited) := by
            rw [depsLoop]
          rw [hred]
          exact hv
      | cons d ds ihds =>
          intro visiting visited v hv
          have hm1 := Hhas d visiting visited v hv
          by_cases hr1 : (hasCycle cfg (fuel + 1) d visiting visited).1 = true
          · have hred : depsLoop cfg (fuel + 1) (d :: ds) visiting visited =
                (true, (hasCycle cfg (fuel + 1) d visiting visited).2) := by
              rw [depsLoop]
              simp [hr1]
            rw [hred]
            exact hm1
          · have hr1' : (hasCycle cfg (fuel + 1) d visiting visited).1 = false := by
              simpa using hr1
            have hred : depsLoop cfg (fuel + 1) (d :: ds) visiting visited =
                depsLoop cfg (fuel + 1) ds visiting
                  (hasCycle cfg (fuel + 1) d visiting visited).2 := by
              rw [depsLoop]
              simp [hr1']
            rw [hred]
            exact ihds visiting (hasCycle cfg (fuel + 1) d visiting visited).2 v hm1

lemma fold_mem_mono (cfg : Config) :
    ∀ (keys : List String) (acc : List String × List String) (x : String),
      x ∈ acc.2 → x ∈ (keys.foldl (detectStep cfg) acc).2 := by
  intro keys
  induction keys with
  | nil => intro acc x hx; simpa using hx
  | cons t ks ih =>
      intro acc x hx
      rw [List.foldl_cons]
      apply ih
      unfold detectStep
      by_cases htv : t ∈ acc.2
      · rw [if_pos htv]
        exact hx
      · rw [if_neg htv]
        have hm := (dfs_visited_mono cfg (dfsFuel cfg)).1 t [] acc.2 x hx
        by_cases hr : (hasCycle cfg (dfsFuel cfg) t [] acc.2).1 = true
        · simp only [hr, if_true]
          exact hm
        · have hr' : (hasCycle cfg (dfsFuel cfg) t [] acc.2).1 = false := by simpa using hr
          simp only [hr']
          simpa using hm

lemma detect_fold_sound (cfg : Config) (hkeys : (cfg.map (·.1)).Nodup) :
    ∀ (keys : List String) (acc : List String × List String),
      (∀ v ∈ acc.2, ¬ReachesCycle cfg v) →
      (∃ ext, (keys.foldl (detectStep cfg) acc).1 = acc.1 ++ ext) ∧
      ((keys.foldl (detectStep cfg) acc).1 = acc.1 →
        (∀ v ∈ (keys.foldl (detectStep cfg) acc).2, ¬ReachesCycle cfg v) ∧
        (∀ t ∈ keys, t ∈ (keys.foldl (detectStep cfg) acc).2)) := by
  intro keys
  induction keys with
  | nil =>
      intro acc hs
      exact ⟨⟨[], by simp⟩, fun _ => ⟨hs, fun t ht => absurd ht (by simp)⟩⟩
  | cons t ks ih =>
      intro acc hs
      rw [List.foldl_cons]
      by_cases htv : t ∈ acc.2
      · have hstep : detectStep cfg acc t = acc := by
          unfold detectStep
          rw [if_pos htv]
        rw [hstep]
        obtain ⟨⟨ext, hext⟩, hne⟩ := ih acc hs
        refine ⟨⟨ext, hext⟩, fun h0 => ?_⟩
        obtain ⟨hsf, hkf⟩ := hne h0
        refine ⟨hsf, ?_⟩
        intro x hx
        rcases List.mem_cons.1 hx with rfl | hx
        · exact fold_mem_mono cfg ks acc x htv
        · exact hkf x hx
      · obtain ⟨hsafe, hmono, hfalse⟩ := ((dfs_sound cfg hkeys (dfsFuel cfg)).1) t [] acc.2 hs
        by_cases hr : (hasCycle cfg (dfsFuel cfg) t [] acc.2).1 = true
        · have hstep : detectStep cfg acc t =
              (acc.1 ++ ["Circular dependency detected involving: " ++ t],
                (hasCycle cfg (dfsFuel cfg) t [] acc.2).2) := by
            unfold detectStep
            rw [if_neg htv]
            simp only [hr, if_true]
          rw [hstep]
          obtain ⟨⟨ext, hext⟩, _⟩ := ih
            (acc.1 ++ ["Circular dependency detected involving: " ++ t],
              (hasCycle cfg (dfsFuel cfg) t [] acc.2).2) hsafe
          refine ⟨⟨["Circular dependency detected involving: " ++ t] ++ ext, by
            rw [hext]; simp⟩, fun h0 => ?_⟩
          exfalso
          rw [hext] at h0
          have := congrArg List.length h0
          simp at this
        · have hr' : (hasCycle cfg (dfsFuel cfg) t [] acc.2).1 = false := by simpa using hr
          have hstep : detectStep cfg acc t =
              (acc.1, (hasCycle cfg (dfsFuel cfg) t [] acc.2).2) := by
            unfold detectStep
            rw [if_neg htv]
            simp only [hr']
            simp
          rw [hstep]
          obtain ⟨⟨ext, hext⟩, hne⟩ := ih
            (acc.1, (hasCycle cfg (dfsFuel cfg) t [] acc.2).2) hsafe
          refine ⟨⟨ext, by simpa using hext⟩, fun h0 => ?_⟩
          obtain ⟨hsf, hkf⟩ := hne (by simpa using h0)
          refine ⟨hsf, ?_⟩
          intro x hx
          rcases List.mem_cons.1 hx with rfl | hx
          · exact fold_mem_mono cfg ks _ x (hfalse hr')
          · exact hkf x hx

/-! ## C6: cyclic configurations are rejected before any file I/O -/

/-- C6: for every correction configuration whose dependency graph contains a
cycle — any non-empty `dependsOn`-cycle, which covers both the two-file cycle
and the self-loop — the workflow's cycle check reports an error and
`run_workflow` aborts with a configuration error before any data file is
loaded (the load log of the returned state is empty) and before any
correction step executes. -/
theorem cyclic_config_rejected_before_io (cfg : Config)
    (loadFn : String → Frame) (processFn : Frame → Frame) (sizeDim : String)
    (hkeys : (cfg.map (·.1)).Nodup)
    (hcyc : ∃ u, Relation.TransGen (dependsOn cfg) u u) :
    detectCircularDependencies cfg ≠ [] ∧
    (runWorkflow loadFn processFn sizeDim cfg).1.loadLog = [] ∧
    (runWorkflow loadFn processFn sizeDim cfg).1.procLog = [] ∧
    ∃ msg, (runWorkflow loadFn processFn sizeDim cfg).2 = .error msg := by
  have hdet : detectCircularDependencies cfg ≠ [] := by
    intro hnil
    unfold detectCircularDependencies at hnil
    rcases List.append_eq_nil.1 hnil with ⟨hdfs, _⟩
    obtain ⟨u, hu⟩ := hcyc
    have hukey : u ∈ cfg.map (·.1) := by
      rcases Relation.TransGen.head'_iff.1 hu with ⟨d, hd, _⟩
      rcases hd with ⟨cs, hmem, _⟩
      exact List.mem_map.2 ⟨(u, cs), hmem, rfl⟩
    obtain ⟨_, hne⟩ := detect_fold_sound cfg hkeys (cfg.map (·.1)) ([], []) (by simp)
    obtain ⟨hsf, hkf⟩ := hne (by simpa using hdfs)
    exact hsf u (hkf u hukey) ⟨u, Relation.ReflTransGen.refl, hu⟩
  refine ⟨hdet, ?_, ?_, ?_⟩
  · unfold runWorkflow
    rw [if_pos hdet]
    rfl
  · unfold runWorkflow
    rw [if_pos hdet]
    rfl
  · refine ⟨"Circular dependencies detected", ?_⟩
    unfold runWorkflow
    rw [if_pos hdet]

/-- Witness for C6 at the two-file cycle `A ↔ B`, with an explicit cycle. -/
theorem cyclic_config_rejected_before_io_witness :
    ((exCycleCfg.map (·.1)).Nodup) ∧
    (∃ u, Relation.TransGen (dependsOn exCycleCfg) u u) ∧
    detectCircularDependencies exCycleCfg ≠ [] ∧
    (runWorkflow (fun _ => ⟨[], []⟩) id "geometric_mean" exCycleCfg).1.loadLog = [] := by
  have h1 : (exCycleCfg.map (·.1)).Nodup := by decide
  have hab : dependsOn exCycleCfg "A" "B" := ⟨["B"], by decide, by decide⟩
  have hba : dependsOn exCycleCfg "B" "A" := ⟨["A"], by decide, by decide⟩
  have h2 : ∃ u, Relation.TransGen (dependsOn exCycleCfg) u u :=
    ⟨"A", Relation.TransGen.head hab (Relation.TransGen.single hba)⟩
  obtain ⟨ha, hb, _, _⟩ := cyclic_config_rejected_before_io exCycleCfg
    (fun _ => ⟨[], []⟩) id "geometric_mean" h1 h2
  exact ⟨h1, h2, ha, hb⟩

/-! ## Lemmas for the workflow caches (`run_workflow`) -/

lemma find?_map_replace (k : String) (v : Frame) :
    ∀ m : List (String × Frame), m.any (fun e => e.1 == k) = true →
      ((m.map (fun e => if e.1 == k then (k, v) else e)).find?
        (fun e => e.1 == k)) = some (k, v) := by
  intro m
  induction m with
  | nil => intro h; simp at h
  | cons e es ih =>
      intro h
      by_cases hek : (e.1 == k) = true
      · simp only [List.map_cons, if_pos hek]
        rw [List.find?_cons_of_pos _ (by simp)]
      · simp only [List.map_cons, if_neg hek]
        rw [List.find?_cons_of_neg _ (by simpa using hek)]
        apply ih
        rcases List.any_eq_true.1 h with ⟨x, hx, hpx⟩
        rcases List.mem_cons.1 hx with rfl | hx
        · exact absurd hpx hek
        · exact List.any_eq_true.2 ⟨x, hx, hpx⟩

lemma find?_append_missing (k : String) (v : Frame) :
    ∀ m : List (String × Frame), m.any (fun e => e.1 == k) = false →
      ((m ++ [(k, v)]).find? (fun e => e.1 == k)) = some (k, v) := by
  intro m
  induction m with
  | nil => intro _; simp
  | cons e es ih =>
      intro h
      simp only [List.any_cons, Bool.or_eq_false_iff] at h
      rw [List.cons_append, List.find?_cons_of_neg _ (by simp [h.1])]
      exact ih (by simp [h.2])

lemma find?_setKey (m : List (String × Frame)) (k : String) (v : Frame) :
    (setKey m k v).find? (fun e => e.1 == k) = some (k, v) := by
  unfold setKey
  by_cases h : m.any (fun e => e.1 == k) = true
  · rw [if_pos h]
    exact find?_map_replace k v m h
  · rw [if_neg h]
    exact find?_append_missing k v m (Bool.eq_false_iff.2 h)

lemma setKey_keys_of_mem (m : List (String × Frame)) (k : String) (v : Frame)
    (h : m.any (fun e => e.1 == k) = true) :
    (setKey m k v).map (·.1) = m.map (·.1) := by
  unfold setKey
  rw [if_pos h]
  rw [List.map_map]
  apply List.map_congr_left
  intro e _
  by_cases hek : (e.1 == k) = true
  · simp only [Function.comp, if_pos hek]
    exact (beq_iff_eq.1 hek).symm
  · simp only [Function.comp, if_neg hek]

lemma getProcessedFile_cached (loadFn : String → Frame) (processFn : Frame → Frame)
    (st : WfState) (f : String) (entry : String × Frame)
    (h : st.processedFiles.find? (fun e => e.1 == f) = some entry) :
    getProcessedFile loadFn processFn st f = (st, entry.2) := by
  unfold getProcessedFile
  rw [h]

lemma loadFile_eq_cached (loadFn : String → Frame) (st : WfState) (f : String)
    (e : String × Frame) (h : st.loadedFiles.find? (fun x => x.1 == f) = some e) :
    loadFile loadFn st f = (st, e.2) := by
  unfold loadFile
  rw [h]

lemma loadFile_eq_new (loadFn : String → Frame) (st : WfState) (f : String)
    (h : st.loadedFiles.find? (fun x => x.1 == f) = none) :
    loadFile loadFn st f =
      ({ loadedFiles := st.loadedFiles ++ [(f, loadFn f)],
         processedFiles := st.processedFiles,
         loadLog := st.loadLog ++ [f], procLog := st.procLog }, loadFn f) := by
  unfold loadFile
  rw [h]

lemma getProcessedFile_eq_new (loadFn : String → Frame) (processFn : Frame → Frame)
    (st : WfState) (f : String)
    (h : st.processedFiles.find? (fun x => x.1 == f) = none) :
    getProcessedFile loadFn processFn st f =
      ({ loadedFiles := (loadFile loadFn st f).1.loadedFiles,
         processedFiles := (loadFile loadFn st f).1.processedFiles ++
           [(f, processFn (loadFile loadFn st f).2)],
         loadLog := (loadFile loadFn st f).1.loadLog,
         procLog := (loadFile loadFn st f).1.procLog ++ [f] },
       processFn (loadFile loadFn st f).2) := by
  unfold getProcessedFile
  rw [h]

lemma loadFile_inv (loadFn : String → Frame) (st : WfState) (f : String)
    (h : WfInv st) :
    WfInv (loadFile loadFn st f).1 ∧
    (loadFile loadFn st f).1.processedFiles = st.processedFiles ∧
    (loadFile loadFn st f).1.procLog = st.procLog := by
  rcases h with ⟨h1, h2, h3, h4⟩
  rcases hf : st.loadedFiles.find? (fun x => x.1 == f) with _ | e
  · rw [loadFile_eq_new loadFn st f hf]
    have hfk : f ∉ st.loadedFiles.map (·.1) := by
      intro hm
      rcases List.mem_map.1 hm with ⟨e, he, hef⟩
      have := List.find?_eq_none.1 hf e he
      simp [hef] at this
    have hfl : f ∉ st.loadLog := fun hm => hfk ((h3 f).1 hm)
    refine ⟨⟨?_, h2, ?_, h4⟩, rfl, rfl⟩
    · rw [List.nodup_append]
      exact ⟨h1, List.nodup_singleton f, fun a ha hb => hfl ((List.mem_singleton.1 hb) ▸ ha)⟩
    · intro g
      simp only [List.mem_append, List.mem_singleton, List.map_append, List.map_cons]
      rw [h3 g]
      simp [List.mem_map]
  · rw [loadFile_eq_cached loadFn st f e hf]
    exact ⟨⟨h1, h2, h3, h4⟩, rfl, rfl⟩

lemma getProcessedFile_inv (loadFn : String → Frame) (processFn : Frame → Frame)
    (st : WfState) (f : String) (h : WfInv st) :
    WfInv (getProcessedFile loadFn processFn st f).1 ∧
    f ∈ (getProcessedFile loadFn processFn st f).1.processedFiles.map (·.1) ∧
    (∀ g, g ∈ st.processedFiles.map (·.1) →
      g ∈ (getProcessedFile loadFn processFn st f).1.processedFiles.map (·.1)) := by
  rcases hf : st.processedFiles.find? (fun x => x.1 == f) with _ | e
  · rw [getProcessedFile_eq_new loadFn processFn st f hf]
    obtain ⟨hL, hLp, hLl⟩ := loadFile_inv loadFn st f h
    rcases hL with ⟨h1, h2, h3, h4⟩
    have hfk : f ∉ (loadFile loadFn st f).1.processedFiles.map (·.1) := by
      rw [hLp]
      intro hm
      rcases List.mem_map.1 hm with ⟨e, he, hef⟩
      have := List.find?_eq_none.1 hf e he
      simp [hef] at this
    have hfl : f ∉ (loadFile loadFn st f).1.procLog := by
      intro hm
      exact hfk ((h4 f).1 hm)
    refine ⟨⟨h1, ?_, h3, ?_⟩, ?_, ?_⟩
    · rw [List.nodup_append]
      exact ⟨h2, List.nodup_singleton f, fun a ha hb => hfl ((List.mem_singleton.1 hb) ▸ ha)⟩
    · intro g
      simp only [List.map_append, List.mem_append, List.mem_singleton, List.map_cons]
      rw [h4 g]
      simp [List.mem_map]
    · simp
    · intro g hg
      simp only [List.map_append]
      rw [hLp]
      exact List.mem_append.2 (Or.inl hg)
  · rw [getProcessedFile_cached loadFn processFn st f e hf]
    refine ⟨h, ?_, fun g hg => hg⟩
    have he := List.find?_some hf
    have hmem := List.mem_of_find?_eq_some hf
    exact List.mem_map.2 ⟨e, hmem, beq_iff_eq.1 he⟩

lemma gatherControls_inv (loadFn : String → Frame) (processFn : Frame → Frame) :
    ∀ (cs : List String) (st : WfState), WfInv st →
      WfInv (gatherControls loadFn processFn cs st).1 ∧
      (∀ g, g ∈ st.processedFiles.map (·.1) →
        g ∈ (gatherControls loadFn processFn cs st).1.processedFiles.map (·.1)) := by
  intro cs
  induction cs with
  | nil => intro st h; exact ⟨h, fun g hg => hg⟩
  | cons c cs ih =>
      intro st h
      obtain ⟨h1, _, hmono⟩ := getProcessedFile_inv loadFn processFn st c h
      obtain ⟨h2, hmono2⟩ := ih (getProcessedFile loadFn processFn st c).1 h1
      exact ⟨h2, fun g hg => hmono2 g (hmono g hg)⟩

lemma runStep_inv (loadFn : String → Frame) (processFn : Frame → Frame)
    (sizeDim : String) (st : WfState) (tc : String × List String) (h : WfInv st) :
    WfInv (runStep loadFn processFn sizeDim st tc).1 := by
  obtain ⟨h1, hkey, _⟩ := getProcessedFile_inv loadFn processFn st tc.1 h
  unfold runStep
  rcases tc with ⟨t, cs⟩
  rcases cs with _ | ⟨c, cs'⟩
  · -- empty control list goes through the synthetic branch
    obtain ⟨h2, hmono2⟩ := gatherControls_inv loadFn processFn []
      (getProcessedFile loadFn processFn st t).1 h1
    rcases h2 with ⟨g1, g2, g3, g4⟩
    have htk : t ∈ (gatherControls loadFn processFn []
        (getProcessedFile loadFn processFn st t).1).1.processedFiles.map (·.1) :=
      hmono2 t hkey
    have hany : ((gatherControls loadFn processFn []
        (getProcessedFile loadFn processFn st t).1).1.processedFiles.any
        (fun e => e.1 == t)) = true := by
      rcases List.mem_map.1 htk with ⟨e, he, hef⟩
      exact List.any_eq_true.2 ⟨e, he, by simp [hef]⟩
    refine ⟨g1, g2, g3, ?_⟩
    intro g
    simp only
    rw [setKey_keys_of_mem _ _ _ hany]
    exact g4 g
  · rcases cs' with _ | ⟨c2, cs''⟩
    · -- single control: blank branch
      obtain ⟨h2, _, hmono2⟩ := getProcessedFile_inv loadFn processFn
        (getProcessedFile loadFn processFn st t).1 c h1
      rcases h2 with ⟨g1, g2, g3, g4⟩
      have htk : t ∈ (getProcessedFile loadFn processFn
          (getProcessedFile loadFn processFn st t).1 c).1.processedFiles.map (·.1) :=
        hmono2 t hkey
      have hany : ((getProcessedFile loadFn processFn
          (getProcessedFile loadFn processFn st t).1 c).1.processedFiles.any
          (fun e => e.1 == t)) = true := by
        rcases List.mem_map.1 htk with ⟨e, he, hef⟩
        exact List.any_eq_true.2 ⟨e, he, by simp [hef]⟩
      refine ⟨g1, g2, g3, ?_⟩
      intro g
      simp only
      rw [setKey_keys_of_mem _ _ _ hany]
      exact g4 g
    · -- two or more controls: synthetic branch
      obtain ⟨h2, hmono2⟩ := gatherControls_inv loadFn processFn (c :: c2 :: cs'')
        (getProcessedFile loadFn processFn st t).1 h1
      rcases h2 with ⟨g1, g2, g3, g4⟩
      have htk : t ∈ (gatherControls loadFn processFn (c :: c2 :: cs'')
          (getProcessedFile loadFn processFn st t).1).1.processedFiles.map (·.1) :=
        hmono2 t hkey
      have hany : ((gatherControls loadFn processFn (c :: c2 :: cs'')
          (getProcessedFile loadFn processFn st t).1).1.processedFiles.any
          (fun e => e.1 == t)) = true := by
        rcases List.mem_map.1 htk with ⟨e, he, hef⟩
        exact List.any_eq_true.2 ⟨e, he, by simp [hef]⟩
      refine ⟨g1, g2, g3, ?_⟩
      intro g
      simp only
      rw [setKey_keys_of_mem _ _ _ hany]
      exact g4 g

lemma runSteps_inv (loadFn : String → Frame) (processFn : Frame → Frame)
    (sizeDim : String) :
    ∀ (order : List (String × List String)) (st : WfState), WfInv st →
      WfInv (runSteps loadFn processFn sizeDim order st).1 := by
  intro order
  induction order with
  | nil => intro st h; exact h
  | cons tc rest ih =>
      intro st h
      exact ih (runStep loadFn processFn sizeDim st tc).1
        (runStep_inv loadFn processFn sizeDim st tc h)

/-! ## C5: corrected results are cached and reused; files load once -/

/-- C5: after a correction step for a target completes, the processed-file
cache entry under that file name is the corrected pool (`run_workflow`
line 392); a later fetch of a cached file returns the cache entry unchanged —
no load and no preprocessing happen — so later steps that use a corrected
file as control or target consume the corrected version; and over a whole
run every file is loaded at most once and preprocessed at most once (the
instrumented event logs are duplicate-free). -/
theorem corrected_cache_reused (loadFn : String → Frame) (processFn : Frame → Frame)
    (sizeDim : String) (cfg : Config) (st : WfState) (tc : String × List String)
    (f : String) (entry : String × Frame) :
    ((runStep loadFn processFn sizeDim st tc).1.processedFiles.find?
        (fun e => e.1 == tc.1) =
      some (tc.1, (runStep loadFn processFn sizeDim st tc).2.corrected)) ∧
    (st.processedFiles.find? (fun e => e.1 == f) = some entry →
      getProcessedFile loadFn processFn st f = (st, entry.2)) ∧
    ((runWorkflow loadFn processFn sizeDim cfg).1.loadLog.Nodup ∧
      (runWorkflow loadFn processFn sizeDim cfg).1.procLog.Nodup) := by
  refine ⟨?_, fun h => getProcessedFile_cached loadFn processFn st f entry h, ?_⟩
  · unfold runStep
    rcases tc with ⟨t, cs⟩
    rcases cs with _ | ⟨c, cs'⟩
    · exact find?_setKey _ t _
    · rcases cs' with _ | ⟨c2, cs''⟩
      · exact find?_setKey _ t _
      · exact find?_setKey _ t _
  · have hinit : WfInv initWfState := by
      refine ⟨List.nodup_nil, List.nodup_nil, ?_, ?_⟩ <;> intro g <;> simp [initWfState]
    unfold runWorkflow
    by_cases hdet : detectCircularDependencies cfg ≠ []
    · rw [if_pos hdet]
      exact ⟨List.nodup_nil, List.nodup_nil⟩
    · rw [if_neg hdet]
      by_cases hord : (resolveProcessingOrder cfg).length = 0
      · rw [if_pos hord]
        exact ⟨List.nodup_nil, List.nodup_nil⟩
      · rw [if_neg hord]
        obtain ⟨g1, g2, _, _⟩ := runSteps_inv loadFn processFn sizeDim
          (resolveProcessingOrder cfg) initWfState hinit
        exact ⟨g1, g2⟩

/-- Witness for C5: a concrete state whose cache already holds a corrected
frame under "A" — the fetch returns it without touching the state. -/
theorem corrected_cache_reused_witness :
    (WfState.mk [] [("A", exEnvFrame)] [] []).processedFiles.find?
        (fun e => e.1 == "A") = some ("A", exEnvFrame) ∧
    getProcessedFile (fun _ => ⟨[], []⟩) id (WfState.mk [] [("A", exEnvFrame)] [] [])
        "A" = (WfState.mk [] [("A", exEnvFrame)] [] [], ("A", exEnvFrame).2) := by
  have h : (WfState.mk [] [("A", exEnvFrame)] [] []).processedFiles.find?
      (fun e => e.1 == "A") = some ("A", exEnvFrame) := by decide
  exact ⟨h, (corrected_cache_reused (fun _ => ⟨[], []⟩) id "geometric_mean" []
    (WfState.mk [] [("A", exEnvFrame)] [] []) ("A", ["B"]) "A" ("A", exEnvFrame)).2.1 h⟩

/-! ## Lemmas for the heap model of the correction passes -/

lemma heapGet_append_lt {h : List Frame} {x : Frame} {r : Nat} (hr : r < h.length) :
    heapGet (h ++ [x]) r = heapGet h r :=
  List.getD_append h [x] _ r hr

lemma heapGet_append_self (h : List Frame) (x : Frame) :
    heapGet (h ++ [x]) h.length = x := by
  simp [heapGet, List.getD_eq_getElem?_getD, List.getElem?_concat_length]

lemma heapGet_set_ne {h : List Frame} {r r' : Nat} {f : Frame} (hne : r ≠ r') :
    heapGet (heapSet h r f) r' = heapGet h r' := by
  simp [heapGet, heapSet, List.getD_eq_getElem?_getD, List.getElem?_set_ne hne]

lemma heapGet_set_self {h : List Frame} {r : Nat} {f : Frame} (hr : r < h.length) :
    heapGet (heapSet h r f) r = f := by
  simp [heapGet, heapSet, List.getD_eq_getElem?_getD, List.getElem?_set, hr]

lemma heapSet_length (h : List Frame) (r : Nat) (f : Frame) :
    (heapSet h r f).length = h.length := List.length_set h r f

lemma findMatchingBlankHeap_spec (sd : String) (ec rc : List String)
    (h : List Frame) (rPool : Nat) (b : Particle) (poolRows : List Particle)
    (hr : rPool < h.length) (hpool : heapGet h rPool = { cols := ec, rows := poolRows }) :
    (findMatchingBlankHeap sd ec rc h rPool b).1.length = h.length + 2 ∧
    (∀ r, r < h.length → heapGet (findMatchingBlankHeap sd ec rc h rPool b).1 r = heapGet h r) ∧
    (findMatchingBlankHeap sd ec rc h rPool b).2 = h.length + 1 ∧
    heapGet (findMatchingBlankHeap sd ec rc h rPool b).1
        (findMatchingBlankHeap sd ec rc h rPool b).2 =
      (findMatchingBlank sd ec rc poolRows b).1 := by
  unfold findMatchingBlankHeap
  rw [hpool]
  simp only []
  by_cases hm : (poolRows.filter (fun p => phenMatches p b)).length = 0
  · rw [if_pos hm]
    have hlen : ((h ++ [Frame.mk ec (poolRows.filter (fun p => phenMatches p b))]) ++
        [Frame.mk ec (poolRows.filter (fun p => phenMatches p b))]).length =
        h.length + 2 := by simp
    refine ⟨hlen, ?_, by simp, ?_⟩
    · intro r hrr
      rw [heapGet_append_lt (by simp; omega), heapGet_append_lt hrr]
    · rw [show (h ++ [Frame.mk ec (poolRows.filter (fun p => phenMatches p b))]).length =
        h.length + 1 by simp]
      have hgs : heapGet ((h ++ [Frame.mk ec (poolRows.filter (fun p => phenMatches p b))]) ++
          [Frame.mk ec (poolRows.filter (fun p => phenMatches p b))]) (h.length + 1) =
          Frame.mk ec (poolRows.filter (fun p => phenMatches p b)) := by
        have := heapGet_append_self
          (h ++ [Frame.mk ec (poolRows.filter (fun p => phenMatches p b))])
          (Frame.mk ec (poolRows.filter (fun p => phenMatches p b)))
        simpa using this
      rw [hgs]
      unfold findMatchingBlank
      rw [if_pos hm]
  · rw [if_neg hm]
    refine ⟨by simp [heapSet_length], ?_, by simp [heapSet_length], ?_⟩
    · intro r hrr
      rw [heapGet_set_ne (by simp; omega)]
      rw [heapGet_append_lt (by simp; omega), heapGet_append_lt hrr]
    · rw [show (h ++ [Frame.mk ec (poolRows.filter (fun p => phenMatches p b))]).length =
        h.length + 1 by simp]
      rw [heapGet_set_self (by simp)]

lemma blankLoopHeap_spec (sd : String) (ec rc : List String) :
    ∀ (bs : List Particle) (h : List Frame) (rPool : Nat) (log : List BlankElim)
      (poolRows : List Particle),
      rPool < h.length →
      heapGet h rPool = { cols := ec, rows := poolRows } →
      h.length ≤ (blankLoopHeap sd ec rc bs h rPool log).1.length ∧
      (∀ r, r < h.length →
        heapGet (blankLoopHeap sd ec rc bs h rPool log).1 r = heapGet h r) ∧
      ((blankLoopHeap sd ec rc bs h rPool log).2.1 = rPool ∨
        h.length ≤ (blankLoopHeap sd ec rc bs h rPool log).2.1) ∧
      (blankLoopHeap sd ec rc bs h rPool log).2.1 < (blankLoopHeap sd ec rc bs h rPool log).1.length ∧
      heapGet (blankLoopHeap sd ec rc bs h rPool log).1 (blankLoopHeap sd ec rc bs h rPool log).2.1 =
        { cols := ec, rows := (blankLoop sd ec rc bs poolRows log).1 } ∧
      (blankLoopHeap sd ec rc bs h rPool log).2.2 = (blankLoop sd ec rc bs poolRows log).2 := by
  intro bs
  induction bs with
  | nil =>
      intro h rPool log poolRows hr hpool
      exact ⟨le_rfl, fun r _ => rfl, Or.inl rfl, hr, hpool, rfl⟩
  | cons b bs ih =>
      intro h rPool log poolRows hr hpool
      obtain ⟨hm1, hm2, hm3, hm4⟩ :=
        findMatchingBlankHeap_spec sd ec rc h rPool b poolRows hr hpool
      have hpool2 : heapGet (findMatchingBlankHeap sd ec rc h rPool b).1 rPool =
          { cols := ec, rows := poolRows } := by
        rw [hm2 rPool hr, hpool]
      rcases hrows : (findMatchingBlank sd ec rc poolRows b).1.rows with _ | ⟨r0, rs⟩
      · have hsc : (heapGet (findMatchingBlankHeap sd ec rc h rPool b).1
            (findMatchingBlankHeap sd ec rc h rPool b).2).rows = [] := by
          rw [hm4, hrows]
        have hred : blankLoopHeap sd ec rc (b :: bs) h rPool log =
            blankLoopHeap sd ec rc bs (findMatchingBlankHeap sd ec rc h rPool b).1 rPool log := by
          simp only [blankLoopHeap]
          rw [hsc]
        have hredp : blankLoop sd ec rc (b :: bs) poolRows log =
            blankLoop sd ec rc bs poolRows log := by
          simp only [blankLoop]
          rw [hrows]
        rw [hred, hredp]
        obtain ⟨i1, i2, i3, i4, i5, i6⟩ := ih (findMatchingBlankHeap sd ec rc h rPool b).1
          rPool log poolRows (by omega) hpool2
        refine ⟨by omega, ?_, ?_, i4, i5, i6⟩
        · intro r hrr
          rw [i2 r (by omega), hm2 r hrr]
        · rcases i3 with i3 | i3
          · exact Or.inl i3
          · exact Or.inr (by omega)
      · have hsc : (heapGet (findMatchingBlankHeap sd ec rc h rPool b).1
            (findMatchingBlankHeap sd ec rc h rPool b).2).rows = r0 :: rs := by
          rw [hm4, hrows]
        have hred : blankLoopHeap sd ec rc (b :: bs) h rPool log =
            blankLoopHeap sd ec rc bs
              ((findMatchingBlankHeap sd ec rc h rPool b).1 ++
                [{ cols := ec, rows := dropPid poolRows (minEntry r0 rs).pid }])
              (findMatchingBlankHeap sd ec rc h rPool b).1.length
              (log ++ [blankElimRecord sd ec rc poolRows b (minEntry r0 rs)]) := by
          simp only [blankLoopHeap]
          rw [hsc]
          simp only [hpool2]
          rfl
        have hredp : blankLoop sd ec rc (b :: bs) poolRows log =
            blankLoop sd ec rc bs (dropPid poolRows (minEntry r0 rs).pid)
              (log ++ [blankElimRecord sd ec rc poolRows b (minEntry r0 rs)]) := by
          simp only [blankLoop]
          rw [hrows]
        rw [hred, hredp]
        have hnew : heapGet ((findMatchingBlankHeap sd ec rc h rPool b).1 ++
            [{ cols := ec, rows := dropPid poolRows (minEntry r0 rs).pid }])
            (findMatchingBlankHeap sd ec rc h rPool b).1.length =
            { cols := ec, rows := dropPid poolRows (minEntry r0 rs).pid } :=
          heapGet_append_self _ _
        obtain ⟨i1, i2, i3, i4, i5, i6⟩ := ih
          ((findMatchingBlankHeap sd ec rc h rPool b).1 ++
            [{ cols := ec, rows := dropPid poolRows (minEntry r0 rs).pid }])
          (findMatchingBlankHeap sd ec rc h rPool b).1.length
          (log ++ [blankElimRecord sd ec rc poolRows b (minEntry r0 rs)])
          (dropPid poolRows (minEntry r0 rs).pid)
          (by simp) hnew
        refine ⟨by simp at i1; omega, ?_, ?_, i4, i5, i6⟩
        · intro r hrr
          rw [i2 r (by simp; omega), heapGet_append_lt (by omega), hm2 r hrr]
        · rcases i3 with i3 | i3
          · exact Or.inr (by omega)
          · exact Or.inr (by simp at i3; omega)

lemma blindMaskHeap_facts (b : Particle) (h : List Frame) (rGrp : Nat) :
    (blindMaskHeap b h rGrp).length = h.length + 2 ∧
    ∀ r, r < h.length → heapGet (blindMaskHeap b h rGrp) r = heapGet h r := by
  simp only [blindMaskHeap]
  constructor
  · split
    · simp
    · simp [heapSet_length]
  · intro r hr
    split
    · rw [heapGet_append_lt (by simp; omega), heapGet_append_lt hr]
    · rw [heapGet_set_ne (by simp; omega), heapGet_append_lt (by simp; omega),
        heapGet_append_lt hr]

lemma blindGroupLoop_state_indep (k : String) :
    ∀ (bs : List Particle) (st st' : BlindState) (grp : List Particle),
      st.pool = st'.pool → st.log = st'.log →
      (blindGroupLoop k bs st grp).1.pool = (blindGroupLoop k bs st' grp).1.pool ∧
      (blindGroupLoop k bs st grp).1.log = (blindGroupLoop k bs st' grp).1.log ∧
      (blindGroupLoop k bs st grp).2 = (blindGroupLoop k bs st' grp).2 := by
  intro bs
  induction bs with
  | nil =>
      intro st st' grp hp hl
      exact ⟨by simpa [blindGroupLoop] using hp, by simpa [blindGroupLoop] using hl,
        by simp [blindGroupLoop]⟩
  | cons b bs ih =>
      intro st st' grp hp hl
      rcases hmat : findMatchingBlind grp b with _ | ⟨r0, rs⟩
      · have h1 : blindGroupLoop k (b :: bs) st grp = blindGroupLoop k bs st grp := by
          simp only [blindGroupLoop, hmat]
        have h2 : blindGroupLoop k (b :: bs) st' grp = blindGroupLoop k bs st' grp := by
          simp only [blindGroupLoop, hmat]
        rw [h1, h2]; exact ih st st' grp hp hl
      · by_cases hg : ((st.pool.map (·.pid)).contains (minEntry r0 rs).pid) = true
        · have hg' : ((st'.pool.map (·.pid)).contains (minEntry r0 rs).pid) = true := by
            rw [← hp]; exact hg
          have h1 : blindGroupLoop k (b :: bs) st grp =
              blindGroupLoop k bs
                { pool := dropPid st.pool (minEntry r0 rs).pid,
                  log := st.log ++ [blindElimRecord k st.pool b (minEntry r0 rs)],
                  misses := st.misses } (dropPid grp (minEntry r0 rs).pid) := by
            simp only [blindGroupLoop, hmat, hg, if_true]
          have h2 : blindGroupLoop k (b :: bs) st' grp =
              blindGroupLoop k bs
                { pool := dropPid st'.pool (minEntry r0 rs).pid,
                  log := st'.log ++ [blindElimRecord k st'.pool b (minEntry r0 rs)],
                  misses := st'.misses } (dropPid grp (minEntry r0 rs).pid) := by
            simp only [blindGroupLoop, hmat, hg', if_true]
          rw [h1, h2]
          exact ih _ _ _ (by simp [hp]) (by simp [hp, hl])
        · have hg' : ¬((st'.pool.map (·.pid)).contains (minEntry r0 rs).pid) = true := by
            rw [← hp]; exact hg
          have h1 : blindGroupLoop k (b :: bs) st grp =
              blindGroupLoop k bs { st with misses := st.misses + 1 } grp := by
            simp only [blindGroupLoop, hmat]
            rw [if_neg hg]
          have h2 : blindGroupLoop k (b :: bs) st' grp =
              blindGroupLoop k bs { st' with misses := st'.misses + 1 } grp := by
            simp only [blindGroupLoop, hmat]
            rw [if_neg hg']
          rw [h1, h2]
          exact ih _ _ _ (by simpa using hp) (by simpa using hl)

lemma blindFold_state_indep (envF blindF : Frame) :
    ∀ (ks : List String) (st st' : BlindState),
      st.pool = st'.pool → st.log = st'.log →
      (ks.foldl (fun s kk =>
          (blindGroupLoop kk blindF.rows s
            (envF.rows.filter (fun p => p.sample == kk))).1) st).pool =
        (ks.foldl (fun s kk =>
          (blindGroupLoop kk blindF.rows s
            (envF.rows.filter (fun p => p.sample == kk))).1) st').pool ∧
      (ks.foldl (fun s kk =>
          (blindGroupLoop kk blindF.rows s
            (envF.rows.filter (fun p => p.sample == kk))).1) st).log =
        (ks.foldl (fun s kk =>
          (blindGroupLoop kk blindF.rows s
            (envF.rows.filter (fun p => p.sample == kk))).1) st').log := by
  intro ks
  induction ks with
  | nil => intro st st' hp hl; exact ⟨hp, hl⟩
  | cons kk ks ih =>
      intro st st' hp hl
      simp only [List.foldl_cons]
      obtain ⟨hp', hl', -⟩ := blindGroupLoop_state_indep kk blindF.rows st st'
        (envF.rows.filter (fun p => p.sample == kk)) hp hl
      exact ih _ _ hp' hl'

lemma blindGroupLoopHeap_spec (k : String) :
    ∀ (bs : List Particle) (h : List Frame) (rPool rGrp : Nat) (log : List BlindElim)
      (pcols gcols : List String) (poolRows grpRows : List Particle),
      rPool < h.length → rGrp < h.length →
      heapGet h rPool = Frame.mk pcols poolRows →
      heapGet h rGrp = Frame.mk gcols grpRows →
      h.length ≤ (blindGroupLoopHeap k bs h rPool rGrp log).1.length ∧
      (∀ r, r < h.length →
        heapGet (blindGroupLoopHeap k bs h rPool rGrp log).1 r = heapGet h r) ∧
      ((blindGroupLoopHeap k bs h rPool rGrp log).2.1 = rPool ∨
        h.length ≤ (blindGroupLoopHeap k bs h rPool rGrp log).2.1) ∧
      (blindGroupLoopHeap k bs h rPool rGrp log).2.1 <
        (blindGroupLoopHeap k bs h rPool rGrp log).1.length ∧
      heapGet (blindGroupLoopHeap k bs h rPool rGrp log).1
          (blindGroupLoopHeap k bs h rPool rGrp log).2.1 =
        Frame.mk pcols (blindGroupLoop k bs ⟨poolRows, log, 0⟩ grpRows).1.pool ∧
      (blindGroupLoopHeap k bs h rPool rGrp log).2.2.2 =
        (blindGroupLoop k bs ⟨poolRows, log, 0⟩ grpRows).1.log := by
  intro bs
  induction bs with
  | nil =>
      intro h rPool rGrp log pcols gcols poolRows grpRows hrp hrg hpool hgrp
      refine ⟨le_rfl, fun r _ => rfl, Or.inl rfl, hrp, ?_, ?_⟩
      · simpa [blindGroupLoopHeap, blindGroupLoop] using hpool
      · simp [blindGroupLoopHeap, blindGroupLoop]
  | cons b bs ih =>
      intro h rPool rGrp log pcols gcols poolRows grpRows hrp hrg hpool hgrp
      obtain ⟨hl2, hk2⟩ := blindMaskHeap_facts b h rGrp
      have hp2 : heapGet (blindMaskHeap b h rGrp) rPool = Frame.mk pcols poolRows := by
        rw [hk2 rPool hrp, hpool]
      have hg2 : heapGet (blindMaskHeap b h rGrp) rGrp = Frame.mk gcols grpRows := by
        rw [hk2 rGrp hrg, hgrp]
      rcases hmat : findMatchingBlind grpRows b with _ | ⟨r0, rs⟩
      · have hredh : blindGroupLoopHeap k (b :: bs) h rPool rGrp log =
            blindGroupLoopHeap k bs (blindMaskHeap b h rGrp) rPool rGrp log := by
          simp only [blindGroupLoopHeap, hgrp, hmat]
        have hredp : blindGroupLoop k (b :: bs) (⟨poolRows, log, 0⟩ : BlindState) grpRows =
            blindGroupLoop k bs ⟨poolRows, log, 0⟩ grpRows := by
          simp only [blindGroupLoop, hmat]
        rw [hredh, hredp]
        obtain ⟨i1, i2, i3, i4, i5, i6⟩ := ih (blindMaskHeap b h rGrp) rPool rGrp log
          pcols gcols poolRows grpRows (by omega) (by omega) hp2 hg2
        refine ⟨by omega, ?_, ?_, i4, i5, i6⟩
        · intro r hrr
          rw [i2 r (by omega), hk2 r hrr]
        · rcases i3 with i3 | i3
          · exact Or.inl i3
          · exact Or.inr (by omega)
      · by_cases hg : ((poolRows.map (·.pid)).contains (minEntry r0 rs).pid) = true
        · have hredh : blindGroupLoopHeap k (b :: bs) h rPool rGrp log =
              blindGroupLoopHeap k bs
                ((blindMaskHeap b h rGrp ++
                    [Frame.mk pcols (dropPid poolRows (minEntry r0 rs).pid)]) ++
                  [Frame.mk gcols (dropPid grpRows (minEntry r0 rs).pid)])
                (blindMaskHeap b h rGrp).length
                (blindMaskHeap b h rGrp ++
                  [Frame.mk pcols (dropPid poolRows (minEntry r0 rs).pid)]).length
                (log ++ [blindElimRecord k poolRows b (minEntry r0 rs)]) := by
            simp only [blindGroupLoopHeap, hgrp, hmat, hp2, hg2, hg, if_true]
            rfl
          have hredp : blindGroupLoop k (b :: bs) (⟨poolRows, log, 0⟩ : BlindState) grpRows =
              blindGroupLoop k bs
                ⟨dropPid poolRows (minEntry r0 rs).pid,
                 log ++ [blindElimRecord k poolRows b (minEntry r0 rs)], 0⟩
                (dropPid grpRows (minEntry r0 rs).pid) := by
            simp only [blindGroupLoop, hmat, hg, if_true]
          rw [hredh, hredp]
          have hH3 : (blindMaskHeap b h rGrp ++
              [Frame.mk pcols (dropPid poolRows (minEntry r0 rs).pid)]).length =
              h.length + 3 := by
            simp [hl2]
          have hH4 : ((blindMaskHeap b h rGrp ++
                [Frame.mk pcols (dropPid poolRows (minEntry r0 rs).pid)]) ++
              [Frame.mk gcols (dropPid grpRows (minEntry r0 rs).pid)]).length =
              h.length + 4 := by
            simp [hl2]
          obtain ⟨i1, i2, i3, i4, i5, i6⟩ := ih
            ((blindMaskHeap b h rGrp ++
                [Frame.mk pcols (dropPid poolRows (minEntry r0 rs).pid)]) ++
              [Frame.mk gcols (dropPid grpRows (minEntry r0 rs).pid)])
            (blindMaskHeap b h rGrp).length
            (blindMaskHeap b h rGrp ++
              [Frame.mk pcols (dropPid poolRows (minEntry r0 rs).pid)]).length
            (log ++ [blindElimRecord k poolRows b (minEntry r0 rs)])
            pcols gcols (dropPid poolRows (minEntry r0 rs).pid)
            (dropPid grpRows (minEntry r0 rs).pid)
            (by omega) (by omega)
            (by rw [heapGet_append_lt (by omega)]; exact heapGet_append_self _ _)
            (heapGet_append_self _ _)
          refine ⟨by omega, ?_, ?_, i4, i5, i6⟩
          · intro r hrr
            rw [i2 r (by omega), heapGet_append_lt (by omega), heapGet_append_lt (by omega),
              hk2 r hrr]
          · rcases i3 with i3 | i3
            · exact Or.inr (by omega)
            · exact Or.inr (by omega)
        · have hredh : blindGroupLoopHeap k (b :: bs) h rPool rGrp log =
              blindGroupLoopHeap k bs (blindMaskHeap b h rGrp) rPool rGrp log := by
            simp only [blindGroupLoopHeap, hgrp, hmat, hp2]
            rw [if_neg hg]
          have hredp : blindGroupLoop k (b :: bs) (⟨poolRows, log, 0⟩ : BlindState) grpRows =
              blindGroupLoop k bs ⟨poolRows, log, 0 + 1⟩ grpRows := by
            simp only [blindGroupLoop, hmat]
            rw [if_neg hg]
          rw [hredh, hredp]
          obtain ⟨i1, i2, i3, i4, i5, i6⟩ := ih (blindMaskHeap b h rGrp) rPool rGrp log
            pcols gcols poolRows grpRows (by omega) (by omega) hp2 hg2
          obtain ⟨ep, el, -⟩ := blindGroupLoop_state_indep k bs
            (⟨poolRows, log, 0⟩ : BlindState) (⟨poolRows, log, 0 + 1⟩ : BlindState)
            grpRows rfl rfl
          refine ⟨by omega, ?_, ?_, i4, ?_, ?_⟩
          · intro r hrr
            rw [i2 r (by omega), hk2 r hrr]
          · rcases i3 with i3 | i3
            · exact Or.inl i3
            · exact Or.inr (by omega)
          · rw [i5, ep]
          · rw [i6, el]

lemma blindOuterLoopHeap_spec (envF blindF : Frame) :
    ∀ (ks : List String) (h : List Frame) (rPool : Nat) (log : List BlindElim)
      (pcols : List String) (poolRows : List Particle),
      rPool < h.length →
      heapGet h rPool = Frame.mk pcols poolRows →
      h.length ≤ (blindOuterLoopHeap envF blindF ks h rPool log).1.length ∧
      (∀ r, r < h.length →
        heapGet (blindOuterLoopHeap envF blindF ks h rPool log).1 r = heapGet h r) ∧
      ((blindOuterLoopHeap envF blindF ks h rPool log).2.1 = rPool ∨
        h.length ≤ (blindOuterLoopHeap envF blindF ks h rPool log).2.1) ∧
      (blindOuterLoopHeap envF blindF ks h rPool log).2.1 <
        (blindOuterLoopHeap envF blindF ks h rPool log).1.length ∧
      heapGet (blindOuterLoopHeap envF blindF ks h rPool log).1
          (blindOuterLoopHeap envF blindF ks h rPool log).2.1 =
        Frame.mk pcols
          (ks.foldl (fun s kk =>
            (blindGroupLoop kk blindF.rows s
              (envF.rows.filter (fun p => p.sample == kk))).1) ⟨poolRows, log, 0⟩).pool ∧
      (blindOuterLoopHeap envF blindF ks h rPool log).2.2 =
        (ks.foldl (fun s kk =>
          (blindGroupLoop kk blindF.rows s
            (envF.rows.filter (fun p => p.sample == kk))).1) ⟨poolRows, log, 0⟩).log := by
  intro ks
  induction ks with
  | nil =>
      intro h rPool log pcols poolRows hrp hpool
      refine ⟨le_rfl, fun r _ => rfl, Or.inl rfl, hrp, ?_, ?_⟩
      · simpa [blindOuterLoopHeap] using hpool
      · simp [blindOuterLoopHeap]
  | cons kk ks ih =>
      intro h rPool log pcols poolRows hrp hpool
      have hredh : blindOuterLoopHeap envF blindF (kk :: ks) h rPool log =
          blindOuterLoopHeap envF blindF ks
            (blindGroupLoopHeap kk blindF.rows
              (h ++ [Frame.mk envF.cols (envF.rows.filter (fun p => p.sample == kk))])
              rPool h.length log).1
            (blindGroupLoopHeap kk blindF.rows
              (h ++ [Frame.mk envF.cols (envF.rows.filter (fun p => p.sample == kk))])
              rPool h.length log).2.1
            (blindGroupLoopHeap kk blindF.rows
              (h ++ [Frame.mk envF.cols (envF.rows.filter (fun p => p.sample == kk))])
              rPool h.length log).2.2.2 := by
        simp only [blindOuterLoopHeap]
      rw [hredh]
      have hl1 : (h ++ [Frame.mk envF.cols
          (envF.rows.filter (fun p => p.sample == kk))]).length = h.length + 1 := by
        simp
      obtain ⟨g1, g2, g3, g4, g5, g6⟩ := blindGroupLoopHeap_spec kk blindF.rows
        (h ++ [Frame.mk envF.cols (envF.rows.filter (fun p => p.sample == kk))])
        rPool h.length log pcols envF.cols poolRows
        (envF.rows.filter (fun p => p.sample == kk))
        (by omega) (by omega)
        (by rw [heapGet_append_lt hrp]; exact hpool)
        (heapGet_append_self _ _)
      obtain ⟨i1, i2, i3, i4, i5, i6⟩ := ih
        (blindGroupLoopHeap kk blindF.rows
          (h ++ [Frame.mk envF.cols (envF.rows.filter (fun p => p.sample == kk))])
          rPool h.length log).1
        (blindGroupLoopHeap kk blindF.rows
          (h ++ [Frame.mk envF.cols (envF.rows.filter (fun p => p.sample == kk))])
          rPool h.length log).2.1
        (blindGroupLoopHeap kk blindF.rows
          (h ++ [Frame.mk envF.cols (envF.rows.filter (fun p => p.sample == kk))])
          rPool h.length log).2.2.2
        pcols
        (blindGroupLoop kk blindF.rows ⟨poolRows, log, 0⟩
          (envF.rows.filter (fun p => p.sample == kk))).1.pool
        g4 g5
      obtain ⟨fp, fl⟩ := blindFold_state_indep envF blindF ks
        (blindGroupLoop kk blindF.rows ⟨poolRows, log, 0⟩
          (envF.rows.filter (fun p => p.sample == kk))).1
        ⟨(blindGroupLoop kk blindF.rows ⟨poolRows, log, 0⟩
            (envF.rows.filter (fun p => p.sample == kk))).1.pool,
          (blindGroupLoopHeap kk blindF.rows
            (h ++ [Frame.mk envF.cols (envF.rows.filter (fun p => p.sample == kk))])
            rPool h.length log).2.2.2, 0⟩
        rfl g6.symm
      refine ⟨by omega, ?_, ?_, i4, ?_, ?_⟩
      · intro r hrr
        rw [i2 r (by omega), g2 r (by omega), heapGet_append_lt hrr]
      · rcases i3 with i3 | i3
        · rcases g3 with g3 | g3
          · exact Or.inl (by rw [i3, g3])
          · exact Or.inr (by omega)
        · exact Or.inr (by omega)
      · simp only [List.foldl_cons]
        rw [fp]
        exact i5
      · simp only [List.foldl_cons]
        rw [fl]
        exact i6

/-- C9: both correction passes leave every heap cell the caller can reference
unchanged — in particular the target pool argument and the control pool
argument hold exactly the same records after the call as before — and the
corrected pool each pass returns lives in a freshly allocated cell, distinct
from both arguments, whose contents are the pure result of the pass. -/
theorem passes_do_not_mutate_inputs (sizeDim : String) (h : List Frame)
    (rEnv rBlind : Nat) (hre : rEnv < h.length) (hrb : rBlind < h.length) :
    (∀ r, r < h.length →
        heapGet (applyBlankCorrectionHeap sizeDim h rEnv rBlind).1 r = heapGet h r) ∧
    (applyBlankCorrectionHeap sizeDim h rEnv rBlind).2.1 ≠ rEnv ∧
    (applyBlankCorrectionHeap sizeDim h rEnv rBlind).2.1 ≠ rBlind ∧
    heapGet (applyBlankCorrectionHeap sizeDim h rEnv rBlind).1
        (applyBlankCorrectionHeap sizeDim h rEnv rBlind).2.1 =
      (applyBlankCorrection sizeDim (heapGet h rEnv) (heapGet h rBlind)).1 ∧
    (applyBlankCorrectionHeap sizeDim h rEnv rBlind).2.2 =
      (applyBlankCorrection sizeDim (heapGet h rEnv) (heapGet h rBlind)).2 ∧
    (∀ r, r < h.length →
        heapGet (applyBlindCorrectionHeap h rEnv rBlind).1 r = heapGet h r) ∧
    (applyBlindCorrectionHeap h rEnv rBlind).2.1 ≠ rEnv ∧
    (applyBlindCorrectionHeap h rEnv rBlind).2.1 ≠ rBlind ∧
    heapGet (applyBlindCorrectionHeap h rEnv rBlind).1
        (applyBlindCorrectionHeap h rEnv rBlind).2.1 =
      (applyBlindCorrection (heapGet h rEnv) (heapGet h rBlind)).1 ∧
    (applyBlindCorrectionHeap h rEnv rBlind).2.2 =
      (applyBlindCorrection (heapGet h rEnv) (heapGet h rBlind)).2 := by
  have hl1 : (h ++ [heapGet h rEnv]).length = h.length + 1 := by simp
  obtain ⟨b1, b2, b3, b4, b5, b6⟩ := blankLoopHeap_spec sizeDim (heapGet h rEnv).cols
    (heapGet h rBlind).cols (heapGet h rBlind).rows (h ++ [heapGet h rEnv]) h.length []
    (heapGet h rEnv).rows (by omega) (heapGet_append_self _ _)
  obtain ⟨o1, o2, o3, o4, o5, o6⟩ := blindOuterLoopHeap_spec (heapGet h rEnv)
    (heapGet h rBlind) (sampleKeys (heapGet h rEnv).rows) (h ++ [heapGet h rEnv])
    h.length [] (heapGet h rEnv).cols (heapGet h rEnv).rows
    (by omega) (heapGet_append_self _ _)
  have hbr : h.length ≤ (applyBlankCorrectionHeap sizeDim h rEnv rBlind).2.1 := by
    rcases b3 with b3 | b3
    · exact le_of_eq b3.symm
    · exact le_trans (by omega) b3
  have hor : h.length ≤ (applyBlindCorrectionHeap h rEnv rBlind).2.1 := by
    rcases o3 with o3 | o3
    · exact le_of_eq o3.symm
    · exact le_trans (by omega) o3
  refine ⟨?_, fun heq => by omega, fun heq => by omega, b5, b6,
    ?_, fun heq => by omega, fun heq => by omega, o5, o6⟩
  · intro r hrr
    exact (b2 r (by omega)).trans (heapGet_append_lt hrr)
  · intro r hrr
    exact (o2 r (by omega)).trans (heapGet_append_lt hrr)

theorem passes_do_not_mutate_inputs_witness :
    (0 : Nat) < ([exEnvFrame, exBlindFrame] : List Frame).length ∧
    (1 : Nat) < ([exEnvFrame, exBlindFrame] : List Frame).length ∧
    heapGet (applyBlankCorrectionHeap "size_geom_mean" [exEnvFrame, exBlindFrame] 0 1).1 0 =
      exEnvFrame ∧
    heapGet (applyBlindCorrectionHeap [exEnvFrame, exBlindFrame] 0 1).1 1 = exBlindFrame := by
  obtain ⟨b2, -, -, -, -, o2, -, -, -, -⟩ :=
    passes_do_not_mutate_inputs "size_geom_mean" [exEnvFrame, exBlindFrame] 0 1
      (by decide) (by decide)
  exact ⟨by decide, by decide, (b2 0 (by decide)).trans rfl, (o2 1 (by decide)).trans rfl⟩

end Gepard
